import Mathlib

/-!
Verification of the execution substrate of the lesson-generation pipeline:
the concurrency-bounded runner (`src/utils/concurrency.ts`), the retry
policy, recovery parser and checkpoint merge of `src/generate-lessons.ts`,
and the agent runtime / JSON utilities (`agentRuntime.ts`,
`utils/json.ts`).

Strings from the JavaScript source are embedded as `List Char` (JS strings
are sequences of code points when traversed with spread syntax, which is
what the sanitizer does).  `JSON.parse` is a host builtin; it is modelled
here by an executable recursive-descent parser over the JSON grammar
(objects, arrays, strings with escapes, numbers kept as literal tokens,
`true`/`false`/`null`), restricted to Unicode scalar values.
-/

/-- Notable characters, named to keep source-text literals readable. -/
def bslashC : Char := Char.ofNat 92

def quoteC : Char := Char.ofNat 34

def btC : Char := Char.ofNat 96

def lbraceC : Char := Char.ofNat 123

def rbraceC : Char := Char.ofNat 125

def lbrackC : Char := Char.ofNat 91

def rbrackC : Char := Char.ofNat 93

def colonC : Char := Char.ofNat 58

def commaC : Char := Char.ofNat 44

/-- JS strings, embedded as lists of code points. -/
abbrev Str := List Char

/-- Whitespace recognised by the JSON grammar (space, tab, LF, CR). -/
def isJsonWs (c : Char) : Bool :=
  c = ' ' || c = Char.ofNat 9 || c = Char.ofNat 10 || c = Char.ofNat 13

/-- Whitespace class used to model the regex `\s` and `String.trim`
(ASCII fragment: space, tab, LF, CR, FF, VT). -/
def isTrimWs (c : Char) : Bool :=
  c = ' ' || c = Char.ofNat 9 || c = Char.ofNat 10 || c = Char.ofNat 13 ||
  c = Char.ofNat 12 || c = Char.ofNat 11

/-- Model of `String.prototype.trim`. -/
def trimL (s : Str) : Str :=
  ((s.dropWhile isTrimWs).reverse.dropWhile isTrimWs).reverse

/-- Model of `String.prototype.toLowerCase` (ASCII fragment). -/
def toLowerL (s : Str) : Str := s.map Char.toLower

/-- Model of `String.prototype.includes`: substring occurrence test. -/
def containsSubstr (text pat : Str) : Bool :=
  match text with
  | [] => pat.isEmpty
  | _ :: t => pat.isPrefixOf text || containsSubstr t pat

/-- Model of `String.prototype.indexOf` for a single character. -/
def idxOfChar (s : Str) (c : Char) : Option Nat :=
  match s with
  | [] => none
  | x :: t => if x = c then some 0 else (idxOfChar t c).map (· + 1)

/-- Model of `String.prototype.lastIndexOf` for a single character. -/
def lastIdxOfChar (s : Str) (c : Char) : Option Nat :=
  match s with
  | [] => none
  | x :: t =>
    match lastIdxOfChar t c with
    | some i => some (i + 1)
    | none => if x = c then some 0 else none

/-- Model of `Array.prototype.join` with a separator. -/
def joinSep (sep : Str) : List Str → Str
  | [] => []
  | [s] => s
  | s :: rest => s ++ sep ++ joinSep sep rest

/-- Model of `String.prototype.split` on a non-empty separator substring
(as used with separator `": "` in the fallback-lesson builder; the
empty-separator case of JS `split` is not exercised by the source). -/
def splitOnSub (sep : Str) (s : Str) : List Str :=
  if hsep : sep = [] then [s]
  else if h : sep.isPrefixOf s then
    [] :: splitOnSub sep (s.drop sep.length)
  else
    match s with
    | [] => [[]]
    | c :: t =>
      match splitOnSub sep t with
      | [] => [[c]]
      | chunk :: rest => (c :: chunk) :: rest
termination_by s.length
decreasing_by
  · have hp : sep <+: s := by
      simpa [List.isPrefixOf_iff_prefix] using h
    have h1 : 0 < sep.length := List.length_pos.mpr hsep
    have h2 : sep.length ≤ s.length := hp.length_le
    simp only [List.length_drop]
    omega
  · simp

/-! ## Backslash sanitizer (`sanitizeJsonBackslashes`, generate-lessons.ts) -/

/-- The valid JSON escape characters, from the `validEscapes` set of
`sanitizeJsonBackslashes`. -/
def validEscapes : List Char := [quoteC, bslashC, '/', 'b', 'f', 'n', 'r', 't', 'u']

/-- Model of `sanitizeJsonBackslashes`: walk the code points; a backslash
followed by a valid escape character is passed through together with that
character; a backslash followed by anything else is doubled and the scan
resumes at the following character; a trailing lone backslash (no next
character) falls to the plain-copy branch of the source. -/
def sanitizeJsonBackslashes : Str → Str
  | [] => []
  | [c] => [c]
  | c1 :: c2 :: rest =>
    if c1 = bslashC then
      if c2 ∈ validEscapes then c1 :: c2 :: sanitizeJsonBackslashes rest
      else bslashC :: bslashC :: sanitizeJsonBackslashes (c2 :: rest)
    else c1 :: sanitizeJsonBackslashes (c2 :: rest)

theorem sanitize_cons_ne (c : Char) (s : Str) (hc : c ≠ bslashC) :
    sanitizeJsonBackslashes (c :: s) = c :: sanitizeJsonBackslashes s := by
  cases s with
  | nil => simp [sanitizeJsonBackslashes]
  | cons d t => rw [sanitizeJsonBackslashes]; simp [hc]

theorem sanitize_cons_valid (c : Char) (s : Str) (hc : c ∈ validEscapes) :
    sanitizeJsonBackslashes (bslashC :: c :: s) =
      bslashC :: c :: sanitizeJsonBackslashes s := by
  rw [sanitizeJsonBackslashes]; simp [hc]

theorem sanitize_cons_invalid (c : Char) (s : Str) (hc : c ∉ validEscapes) :
    sanitizeJsonBackslashes (bslashC :: c :: s) =
      bslashC :: bslashC :: sanitizeJsonBackslashes (c :: s) := by
  rw [sanitizeJsonBackslashes]; simp [hc]

/-- Claim C10: the escape sanitizer is idempotent — running
`sanitizeJsonBackslashes` on its own output changes nothing, so
already-sanitized text never has its backslashes doubled again. -/
theorem sanitizeJsonBackslashes_idempotent (s : Str) :
    sanitizeJsonBackslashes (sanitizeJsonBackslashes s) = sanitizeJsonBackslashes s := by
  suffices h : ∀ n (s : Str), s.length = n →
      sanitizeJsonBackslashes (sanitizeJsonBackslashes s) = sanitizeJsonBackslashes s from
    h s.length s rfl
  intro n
  induction n using Nat.strong_induction_on with
  | _ n ih =>
  intro s hn
  match s with
  | [] => simp [sanitizeJsonBackslashes]
  | [c] => simp [sanitizeJsonBackslashes]
  | c1 :: c2 :: rest =>
    simp only [List.length_cons] at hn
    by_cases h1 : c1 = bslashC
    · subst h1
      by_cases h2 : c2 ∈ validEscapes
      · rw [sanitize_cons_valid c2 rest h2, sanitize_cons_valid c2 _ h2,
          ih rest.length (by omega) rest rfl]
      · rw [sanitize_cons_invalid c2 rest h2]
        have hbs : bslashC ∈ validEscapes := by simp [validEscapes]
        rw [sanitize_cons_valid bslashC _ hbs,
          ih (c2 :: rest).length (by simp; omega) (c2 :: rest) rfl]
    · rw [sanitize_cons_ne c1 (c2 :: rest) h1, sanitize_cons_ne c1 _ h1,
        ih (c2 :: rest).length (by simp; omega) (c2 :: rest) rfl]

/-! ## Model of the `JSON.parse` builtin

An executable recursive-descent parser over the JSON grammar.  Numbers are
kept as their literal token (this development never relies on numeric
semantics, only on which texts parse), object fields are kept in textual
order (property lookup later models the last-wins semantics of duplicate
keys), and `\u` escapes are restricted to Unicode scalar values, the
fragment representable by Lean `Char`. -/

inductive Json where
  | null : Json
  | bool (b : Bool) : Json
  | num (lit : Str) : Json
  | str (s : Str) : Json
  | arr (xs : List Json) : Json
  | obj (fields : List (Str × Json)) : Json

/-- Decode one valid single-character JSON escape. -/
def escDecode (c : Char) : Option Char :=
  if c = quoteC then some quoteC
  else if c = bslashC then some bslashC
  else if c = '/' then some '/'
  else if c = 'b' then some (Char.ofNat 8)
  else if c = 'f' then some (Char.ofNat 12)
  else if c = 'n' then some (Char.ofNat 10)
  else if c = 'r' then some (Char.ofNat 13)
  else if c = 't' then some (Char.ofNat 9)
  else none

def hexVal (c : Char) : Option Nat :=
  if '0' ≤ c ∧ c ≤ '9' then some (c.toNat - 48)
  else if 'a' ≤ c ∧ c ≤ 'f' then some (c.toNat - 87)
  else if 'A' ≤ c ∧ c ≤ 'F' then some (c.toNat - 55)
  else none

/-- Lex the body of a JSON string after its opening quote; returns the
decoded contents and the remainder after the closing quote. -/
def parseStringBody : Str → Option (Str × Str)
  | [] => none
  | c :: rest =>
    if c = quoteC then some ([], rest)
    else if c = bslashC then
      match rest with
      | [] => none
      | e :: rest2 =>
        if e = 'u' then
          match rest2 with
          | h1 :: h2 :: h3 :: h4 :: rest3 =>
            match hexVal h1, hexVal h2, hexVal h3, hexVal h4 with
            | some v1, some v2, some v3, some v4 =>
              let n := ((v1 * 16 + v2) * 16 + v3) * 16 + v4
              if n < 55296 ∨ (57343 < n ∧ n < 1114112) then
                (parseStringBody rest3).map (fun p => (Char.ofNat n :: p.1, p.2))
              else none
            | _, _, _, _ => none
          | _ => none
        else
          match escDecode e with
          | some d => (parseStringBody rest2).map (fun p => (d :: p.1, p.2))
          | none => none
    else if c.toNat < 32 then none
    else (parseStringBody rest).map (fun p => (c :: p.1, p.2))

/-- Characters a JSON number token can be built from (the scanner takes a
maximal run of these and then validates against the number grammar). -/
def isNumChar (c : Char) : Bool :=
  c.isDigit || c = '-' || c = '+' || c = '.' || c = 'e' || c = 'E'

/-- One-or-more digits, returning the remainder. -/
def chompDigits1 : Str → Option Str
  | l => let ds := l.takeWhile Char.isDigit
         if ds.isEmpty then none else some (l.dropWhile Char.isDigit)

/-- `int` part of the JSON number grammar: `0` or a nonzero digit followed
by digits. -/
def chompInt : Str → Option Str
  | [] => none
  | c :: r =>
    if c = '0' then some r
    else if c.isDigit then some (r.dropWhile Char.isDigit)
    else none

/-- Optional `frac` part: `.` followed by one or more digits. -/
def chompFrac : Str → Option Str
  | l => match l with
         | c :: r => if c = '.' then chompDigits1 r else some l
         | [] => some []

/-- Optional `exp` part: `e`/`E`, optional sign, one or more digits. -/
def chompExp : Str → Option Str
  | l => match l with
         | c :: r =>
           if c = 'e' ∨ c = 'E' then
             match r with
             | s :: r2 => if s = '+' ∨ s = '-' then chompDigits1 r2 else chompDigits1 r
             | [] => none
           else some l
         | [] => some []

/-- Whether a token is a complete JSON number literal. -/
def isJsonNumberLit (l : Str) : Bool :=
  let l1 := match l with
            | c :: r => if c = '-' then r else l
            | [] => l
  match chompInt l1 with
  | none => false
  | some r1 =>
    match chompFrac r1 with
    | none => false
    | some r2 =>
      match chompExp r2 with
      | none => false
      | some r3 => r3.isEmpty

def skipWs (s : Str) : Str := s.dropWhile isJsonWs

mutual

/-- Parse one JSON value (fuelled; `jsonParse` supplies ample fuel). -/
def parseValue : Nat → Str → Option (Json × Str)
  | 0, _ => none
  | Nat.succ fuel, input =>
    match skipWs input with
    | [] => none
    | c :: rest =>
      if c = quoteC then (parseStringBody rest).map (fun p => (Json.str p.1, p.2))
      else if c = lbraceC then parseObjItems fuel rest
      else if c = lbrackC then parseArrItems fuel rest
      else if c = 'n' then
        match rest with
        | 'u' :: 'l' :: 'l' :: r => some (Json.null, r)
        | _ => none
      else if c = 't' then
        match rest with
        | 'r' :: 'u' :: 'e' :: r => some (Json.bool true, r)
        | _ => none
      else if c = 'f' then
        match rest with
        | 'a' :: 'l' :: 's' :: 'e' :: r => some (Json.bool false, r)
        | _ => none
      else if c.isDigit ∨ c = '-' then
        let tok := (c :: rest).takeWhile isNumChar
        if isJsonNumberLit tok then some (Json.num tok, (c :: rest).dropWhile isNumChar)
        else none
      else none

/-- After `[`: either an immediate `]` or one-or-more comma-separated values. -/
def parseArrItems : Nat → Str → Option (Json × Str)
  | 0, _ => none
  | Nat.succ fuel, input =>
    match skipWs input with
    | c :: rest =>
      if c = rbrackC then some (Json.arr [], rest)
      else
        match parseValue fuel input with
        | some (v, r) =>
          match parseArrMore fuel r with
          | some (vs, r2) => some (Json.arr (v :: vs), r2)
          | none => none
        | none => none
    | [] => none

/-- After an array element: `,` and another element, or the closing `]`. -/
def parseArrMore : Nat → Str → Option (List Json × Str)
  | 0, _ => none
  | Nat.succ fuel, input =>
    match skipWs input with
    | c :: rest =>
      if c = rbrackC then some ([], rest)
      else if c = commaC then
        match parseValue fuel rest with
        | some (v, r) =>
          match parseArrMore fuel r with
          | some (vs, r2) => some (v :: vs, r2)
          | none => none
        | none => none
      else none
    | [] => none

/-- After `{`: either an immediate `}` or one-or-more comma-separated fields. -/
def parseObjItems : Nat → Str → Option (Json × Str)
  | 0, _ => none
  | Nat.succ fuel, input =>
    match skipWs input with
    | c :: rest =>
      if c = rbraceC then some (Json.obj [], rest)
      else
        match parseField fuel input with
        | some (kv, r) =>
          match parseObjMore fuel r with
          | some (kvs, r2) => some (Json.obj (kv :: kvs), r2)
          | none => none
        | none => none
    | [] => none

/-- One `"key": value` field. -/
def parseField : Nat → Str → Option ((Str × Json) × Str)
  | 0, _ => none
  | Nat.succ fuel, input =>
    match skipWs input with
    | c :: rest =>
      if c = quoteC then
        match parseStringBody rest with
        | some (k, r) =>
          match skipWs r with
          | c2 :: r2 =>
            if c2 = colonC then
              match parseValue fuel r2 with
              | some (v, r3) => some (((k, v), r3))
              | none => none
            else none
          | [] => none
        | none => none
      else none
    | [] => none

/-- After an object field: `,` and another field, or the closing `}`. -/
def parseObjMore : Nat → Str → Option (List (Str × Json) × Str)
  | 0, _ => none
  | Nat.succ fuel, input =>
    match skipWs input with
    | c :: rest =>
      if c = rbraceC then some ([], rest)
      else if c = commaC then
        match parseField fuel rest with
        | some (kv, r) =>
          match parseObjMore fuel r with
          | some (kvs, r2) => some (kv :: kvs, r2)
          | none => none
        | none => none
      else none
    | [] => none

end

/-- Model of `JSON.parse`: parse one value surrounded by optional
whitespace; anything left over is a syntax error (`none`). -/
def jsonParse (s : Str) : Option Json :=
  match parseValue (s.length + 1) s with
  | some (v, rest) => if skipWs rest = [] then some v else none
  | none => none

/-! ## Fence and bracket extraction (utils/json.ts and generate-lessons.ts) -/

/-- Whether the text starts with a triple-backtick fence. -/
def fenceOpen (l : Str) : Bool := l.take 3 = [btC, btC, btC]

/-- Position of the next triple-backtick occurrence (the lazy `[\s\S]*?`
of the fence regex stops at the first closing fence). -/
def findFencePos : Str → Option Nat
  | [] => none
  | c :: t => if fenceOpen (c :: t) then some 0 else (findFencePos t).map (· + 1)

/-- The optionally case-insensitive `json` tag after the opening fence
(`(?:json)?` of the regex; `utils/json.ts` compiles the regex with the
`i` flag, generate-lessons.ts without it). -/
def jsonTagLen (ci : Bool) (l : Str) : Nat :=
  let probe := if ci then toLowerL (l.take 4) else l.take 4
  if probe = ['j', 's', 'o', 'n'] then 4 else 0

/-- Try to match the fence regex with the match starting at the head of
`l`: opening fence, optional tag, greedy `\s*`, lazy content, closing
fence.  Returns the raw capture group. -/
def fenceMatchHere (ci : Bool) (l : Str) : Option Str :=
  if fenceOpen l then
    let r1 := l.drop 3
    let r2 := r1.drop (jsonTagLen ci r1)
    let r3 := r2.dropWhile isTrimWs
    (findFencePos r3).map (fun k => r3.take k)
  else none

/-- Model of matching `/```(?:json)?\s*([\s\S]*?)```/` against a text:
the regex engine tries each start position left to right (the consumed
tag and whitespace contain no backtick, so backtracking inside a failed
start position never helps). -/
def fenceCapture (ci : Bool) : Str → Option Str
  | [] => none
  | c :: t =>
    match fenceMatchHere ci (c :: t) with
    | some g => some g
    | none => fenceCapture ci t

/-- Model of `extractFencedJson` (utils/json.ts): the capture group of the
case-insensitive fence regex, trimmed. -/
def extractFencedJson (text : Str) : Option Str :=
  (fenceCapture true text).map trimL

/-- Model of `extractDelimitedJson` (utils/json.ts): substring from the
first `start` to the last `end` delimiter, trimmed. -/
def extractDelimitedJson (text : Str) (start stop : Char) : Option Str :=
  match idxOfChar text start, lastIdxOfChar text stop with
  | some i, some j =>
    if j ≤ i then none else some (trimL ((text.drop i).take (j + 1 - i)))
  | _, _ => none

/-- Errors surfaced by the modelled parsing helpers, as their message. -/
abbrev PMsg := Str

/-- Model of `parseJsonFromModelText` (utils/json.ts): empty input is an
error; a truthy (non-empty) fenced block is parsed first and wins if it
parses; otherwise the trimmed text itself is parsed; on failure the
`{...}` slice is tried (a parse error there propagates), then the
`[...]` slice. -/
def parseJsonFromModelText (raw : Str) : Except PMsg Json :=
  let trimmed := trimL raw
  if trimmed = [] then .error ("Model returned an empty response.").toList
  else
    let direct : Except PMsg Json :=
      match jsonParse trimmed with
      | some v => .ok v
      | none =>
        match extractDelimitedJson trimmed lbraceC rbraceC with
        | some cand =>
          match jsonParse cand with
          | some v => .ok v
          | none => .error ("Unexpected token in JSON.").toList
        | none =>
          match extractDelimitedJson trimmed lbrackC rbrackC with
          | some cand =>
            match jsonParse cand with
            | some v => .ok v
            | none => .error ("Unexpected token in JSON.").toList
          | none => .error ("Model response did not contain valid JSON.").toList
    match extractFencedJson trimmed with
    | some fenced =>
      if fenced = [] then direct
      else
        match jsonParse fenced with
        | some v => .ok v
        | none => direct
    | none => direct

/-! ## Truncation repair and the lesson-response parser (generate-lessons.ts) -/

/-- Number of consecutive backslashes immediately before position `q`
(the escapedness test of `repairTruncatedJson`). -/
def backslashRunBefore (s : Str) (q : Nat) : Nat :=
  ((s.take q).reverse.takeWhile (· = bslashC)).length

/-- The chop loop of `repairTruncatedJson` (at most 20 attempts): find the
last quote; if it is escaped, cut it off and retry, otherwise keep the
text up to and including it. -/
def chopToLastQuote : Nat → Str → Str
  | 0, s => s
  | Nat.succ attempts, s =>
    match lastIdxOfChar s quoteC with
    | none => s
    | some q =>
      if backslashRunBefore s q % 2 ≠ 0 then chopToLastQuote attempts (s.take q)
      else s.take (q + 1)

/-- Model of the replacement `s.replace(/,\s*$/, "")`: drop one trailing
comma together with the whitespace after it, if present. -/
def stripTrailingComma (s : Str) : Str :=
  let rev := s.reverse
  let revWs := rev.dropWhile isTrimWs
  match revWs with
  | c :: t => if c = commaC then t.reverse else s
  | [] => s

/-- State of the bracket-counting scan of `repairTruncatedJson`.  The
counters are integers: the source decrements freely. -/
structure ScanSt where
  escaped : Bool
  inString : Bool
  openBraces : Int
  openBrackets : Int
deriving DecidableEq, Repr

def scanStep (st : ScanSt) (c : Char) : ScanSt :=
  if st.escaped then { st with escaped := false }
  else if c = bslashC then { st with escaped := true }
  else if c = quoteC then { st with inString := !st.inString }
  else if st.inString then st
  else if c = lbraceC then { st with openBraces := st.openBraces + 1 }
  else if c = rbraceC then { st with openBraces := st.openBraces - 1 }
  else if c = lbrackC then { st with openBrackets := st.openBrackets + 1 }
  else if c = rbrackC then { st with openBrackets := st.openBrackets - 1 }
  else st

/-- Run the bracket scan over a text from the initial state. -/
def scanCounts (s : Str) : ScanSt :=
  s.foldl scanStep ⟨false, false, 0, 0⟩

/-- Model of `repairTruncatedJson`: chop back to the last unescaped quote,
strip a trailing comma, then append closing brackets and braces counted
by the string-aware scan (arrays closed before objects). -/
def repairTruncatedJson (raw : Str) : Str :=
  let s1 := chopToLastQuote 20 raw
  let s2 := stripTrailingComma s1
  let st := scanCounts s2
  s2 ++ List.replicate st.openBrackets.toNat rbrackC
     ++ List.replicate st.openBraces.toNat rbraceC

/-- Model of the fence regex of generate-lessons.ts (case-sensitive, no
`i` flag), with the capture group trimmed as at its use site. -/
def fencedPayload (raw : Str) : Option Str :=
  (fenceCapture false raw).map trimL

/-- Model of the brace slice of `parseJsonResponse`: substring from the
first `{` to the last `}` (untrimmed), when the last `}` is strictly
after the first `{`. -/
def braceSlice (raw : Str) : Option Str :=
  match idxOfChar raw lbraceC, lastIdxOfChar raw rbraceC with
  | some i, some j => if i < j then some ((raw.drop i).take (j + 1 - i)) else none
  | _, _ => none

/-- Model of `parseJsonResponse` (generate-lessons.ts): pick the payload
(fenced block if the regex matches, else the brace slice, else the raw
text), then try `JSON.parse` directly, then after backslash sanitization,
then after truncation repair of the sanitized text. -/
def parseJsonResponse (raw : Str) : Except PMsg Json :=
  let jsonStr :=
    match fencedPayload raw with
    | some f => f
    | none =>
      match braceSlice raw with
      | some s => s
      | none => raw
  match jsonParse jsonStr with
  | some v => .ok v
  | none =>
    let sanitized := sanitizeJsonBackslashes jsonStr
    match jsonParse sanitized with
    | some v => .ok v
    | none =>
      let repaired := repairTruncatedJson sanitized
      match jsonParse repaired with
      | some v => .ok v
      | none => .error ("Could not parse JSON from response").toList

/-! ## Claims C3 and C8 -/

/-- A text that is itself valid JSON (an array holding one string made of
backticks and a digit) and also contains a triple-backtick fence. -/
def c3Input : Str := [lbrackC, quoteC, btC, btC, btC, '1', btC, btC, btC, quoteC, rbrackC]

/-- Claim C3 counterexample: the trimmed raw text parses directly as the
array, yet `parseJsonFromModelText` attempts fence extraction first and
returns the number parsed from the fenced content, so a direct parse of
the trimmed text is not attempted first and fence extraction is attempted
even though the raw text parses. -/
theorem parseJsonFromModelText_not_direct_first :
    jsonParse (trimL c3Input) =
      some (Json.arr [Json.str [btC, btC, btC, '1', btC, btC, btC]]) ∧
    parseJsonFromModelText c3Input = .ok (Json.num ['1']) ∧
    Json.num ['1'] ≠ Json.arr [Json.str [btC, btC, btC, '1', btC, btC, btC]] :=
  ⟨rfl, rfl, fun h => Json.noConfusion h⟩

/-- Claim C3 (amended): the recovery parser applies fence extraction
first — a non-empty fenced block that parses wins even when the trimmed
raw text parses directly; the direct parse of the trimmed text is used
only when no fence is found or the fenced content fails to parse. -/
theorem parseJsonFromModelText_fence_first :
    (∀ raw f v, trimL raw ≠ [] → extractFencedJson (trimL raw) = some f → f ≠ [] →
      jsonParse f = some v → parseJsonFromModelText raw = .ok v) ∧
    (∀ raw v, trimL raw ≠ [] → extractFencedJson (trimL raw) = none →
      jsonParse (trimL raw) = some v → parseJsonFromModelText raw = .ok v) ∧
    (∀ raw f v, trimL raw ≠ [] → extractFencedJson (trimL raw) = some f →
      jsonParse f = none → jsonParse (trimL raw) = some v →
      parseJsonFromModelText raw = .ok v) := by
  refine ⟨?_, ?_, ?_⟩
  · intro raw f v h1 h2 h3 h4
    unfold parseJsonFromModelText
    simp only [if_neg h1, h2, h4]
    simp [h3]
  · intro raw v h1 h2 h3
    unfold parseJsonFromModelText
    simp only [if_neg h1, h2, h3]
  · intro raw f v h1 h2 h3 h4
    unfold parseJsonFromModelText
    simp only [if_neg h1, h2, h3, h4]
    by_cases hf : f = [] <;> simp [hf, h3, h4]

/-- Witness for the amended C3 theorem at the concrete fenced input. -/
theorem parseJsonFromModelText_fence_first_witness :
    parseJsonFromModelText c3Input = .ok (Json.num ['1']) :=
  parseJsonFromModelText_fence_first.1 c3Input ['1'] (Json.num ['1'])
    (by decide) rfl (by decide) rfl

/-- A well-formed serialized value, and its truncation 9 code points in —
cut off mid-string, after an odd number (3) of unescaped quotes. -/
def c8Full : Str :=
  [lbraceC, quoteC, 'a', quoteC, colonC, quoteC, 'h', 'e', 'l', 'l', 'o', quoteC, rbraceC]

def c8Input : Str := c8Full.take 9

/-- Claim C8 (code bug): on a serialization cut off mid-string the chop
loop of `repairTruncatedJson` keeps the *opening* quote of the
unterminated string, so the repaired text still contains an unterminated
string: it does not parse, the net brace count outside string context is
1 rather than 0, and the whole recovery pipeline fails — contradicting
the function's own documentation ("find the last complete JSON
property/value and truncate there ... close any open arrays and
objects"). -/
theorem repairTruncatedJson_mid_string_bug :
    (jsonParse c8Full).isSome = true ∧
    c8Input = [lbraceC, quoteC, 'a', quoteC, colonC, quoteC, 'h', 'e', 'l'] ∧
    (c8Input.filter (· == quoteC)).length = 3 ∧
    repairTruncatedJson c8Input =
      [lbraceC, quoteC, 'a', quoteC, colonC, quoteC, rbraceC] ∧
    jsonParse (repairTruncatedJson c8Input) = none ∧
    (scanCounts (repairTruncatedJson c8Input)).openBrackets = 0 ∧
    (scanCounts (repairTruncatedJson c8Input)).openBraces = 1 ∧
    parseJsonResponse c8Input = .error ("Could not parse JSON from response").toList :=
  ⟨rfl, rfl, rfl, rfl, rfl, rfl, rfl, rfl⟩

/-! ## Claim C7: texts with invalid escapes, and sanitizer correctness

`LJson` generates exactly the "JSON-like, otherwise well-formed" texts of
the claim: well-formed JSON structure whose string literals may contain
invalid escapes — a lone backslash before a character outside the valid
escape set.  `lser` renders such a text, `lvalue` is the value the claim
expects after sanitization (each invalid escape becomes a literal
backslash followed by the offending character). -/

/-- One string-literal token: a plain character, a valid escape, or an
invalid escape (lone backslash before a non-escape character). -/
inductive STok where
  | raw (c : Char)
  | esc (c : Char)
  | inv (c : Char)

/-- Well-formedness of a token inside an (otherwise) well-formed string
literal: plain characters are unescaped non-quote non-backslash
non-control characters; valid escapes use the single-character escape
set; invalid escapes use a printable character outside `validEscapes`. -/
def tokWF : STok → Bool
  | .raw c => decide (c ≠ quoteC) && decide (c ≠ bslashC) && decide (32 ≤ c.toNat)
  | .esc c => decide (c ∈ [quoteC, bslashC, '/', 'b', 'f', 'n', 'r', 't'])
  | .inv c => decide (c ∉ validEscapes) && decide (32 ≤ c.toNat)

/-- Token as it appears in the raw (pre-sanitization) text. -/
def tokRender : STok → Str
  | .raw c => [c]
  | .esc c => [bslashC, c]
  | .inv c => [bslashC, c]

/-- Token after `sanitizeJsonBackslashes`: invalid escapes get their
backslash doubled. -/
def tokRenderSan : STok → Str
  | .raw c => [c]
  | .esc c => [bslashC, c]
  | .inv c => [bslashC, bslashC, c]

/-- The characters the token denotes in the parsed string value: an
invalid escape denotes the literal two-character sequence backslash then
the character. -/
def tokDecode : STok → Str
  | .raw c => [c]
  | .esc c => [(escDecode c).getD c]
  | .inv c => [bslashC, c]

def strRender (toks : List STok) : Str := toks.flatMap tokRender

def strRenderSan (toks : List STok) : Str := toks.flatMap tokRenderSan

def strDecode (toks : List STok) : Str := toks.flatMap tokDecode

mutual

/-- JSON-like values whose string literals are token lists (and may hence
contain invalid escapes). -/
inductive LJson where
  | null : LJson
  | bool (b : Bool) : LJson
  | num (lit : Str) : LJson
  | str (toks : List STok) : LJson
  | arr (xs : LJsonList) : LJson
  | obj (fs : LJsonFields) : LJson

inductive LJsonList where
  | nil : LJsonList
  | cons (x : LJson) (xs : LJsonList) : LJsonList

inductive LJsonFields where
  | nil : LJsonFields
  | cons (k : List STok) (v : LJson) (fs : LJsonFields) : LJsonFields

end

mutual

/-- Well-formedness: grammatical number literals, well-formed tokens. -/
def ljWF : LJson → Bool
  | .null => true
  | .bool _ => true
  | .num lit => isJsonNumberLit lit && !lit.isEmpty && lit.all isNumChar
  | .str toks => toks.all tokWF
  | .arr xs => ljWFList xs
  | .obj fs => ljWFFields fs

def ljWFList : LJsonList → Bool
  | .nil => true
  | .cons x xs => ljWF x && ljWFList xs

def ljWFFields : LJsonFields → Bool
  | .nil => true
  | .cons k v fs => k.all tokWF && ljWF v && ljWFFields fs

end

mutual

/-- Raw rendering of a JSON-like value (no whitespace, like
`JSON.stringify`, but possibly with invalid escapes inside strings). -/
def lser : LJson → Str
  | .null => ('n' :: 'u' :: 'l' :: 'l' :: [])
  | .bool true => ('t' :: 'r' :: 'u' :: 'e' :: [])
  | .bool false => ('f' :: 'a' :: 'l' :: 's' :: 'e' :: [])
  | .num lit => lit
  | .str toks => quoteC :: strRender toks ++ [quoteC]
  | .arr xs => lbrackC :: lserElems xs ++ [rbrackC]
  | .obj fs => lbraceC :: lserFields fs ++ [rbraceC]

def lserElems : LJsonList → Str
  | .nil => []
  | .cons x xs => lser x ++ lserMore xs

def lserMore : LJsonList → Str
  | .nil => []
  | .cons x xs => commaC :: (lser x ++ lserMore xs)

def lserFields : LJsonFields → Str
  | .nil => []
  | .cons k v fs => quoteC :: strRender k ++ [quoteC, colonC] ++ lser v ++ lserFieldsMore fs

def lserFieldsMore : LJsonFields → Str
  | .nil => []
  | .cons k v fs =>
    commaC :: (quoteC :: strRender k ++ [quoteC, colonC] ++ lser v ++ lserFieldsMore fs)

end

mutual

/-- Sanitized rendering: what `sanitizeJsonBackslashes` produces on
`lser` (proved below). -/
def lserSan : LJson → Str
  | .null => ('n' :: 'u' :: 'l' :: 'l' :: [])
  | .bool true => ('t' :: 'r' :: 'u' :: 'e' :: [])
  | .bool false => ('f' :: 'a' :: 'l' :: 's' :: 'e' :: [])
  | .num lit => lit
  | .str toks => quoteC :: strRenderSan toks ++ [quoteC]
  | .arr xs => lbrackC :: lserSanElems xs ++ [rbrackC]
  | .obj fs => lbraceC :: lserSanFields fs ++ [rbraceC]

def lserSanElems : LJsonList → Str
  | .nil => []
  | .cons x xs => lserSan x ++ lserSanMore xs

def lserSanMore : LJsonList → Str
  | .nil => []
  | .cons x xs => commaC :: (lserSan x ++ lserSanMore xs)

def lserSanFields : LJsonFields → Str
  | .nil => []
  | .cons k v fs =>
    quoteC :: strRenderSan k ++ [quoteC, colonC] ++ lserSan v ++ lserSanFieldsMore fs

def lserSanFieldsMore : LJsonFields → Str
  | .nil => []
  | .cons k v fs =>
    commaC :: (quoteC :: strRenderSan k ++ [quoteC, colonC] ++ lserSan v ++ lserSanFieldsMore fs)

end

mutual

/-- The value the sanitized text denotes. -/
def lvalue : LJson → Json
  | .null => Json.null
  | .bool b => Json.bool b
  | .num lit => Json.num lit
  | .str toks => Json.str (strDecode toks)
  | .arr xs => Json.arr (lvalueList xs)
  | .obj fs => Json.obj (lvalueFields fs)

def lvalueList : LJsonList → List Json
  | .nil => []
  | .cons x xs => lvalue x :: lvalueList xs

def lvalueFields : LJsonFields → List (Str × Json)
  | .nil => []
  | .cons k v fs => (strDecode k, lvalue v) :: lvalueFields fs

end

mutual

/-- Fuel needed by `parseValue` on the sanitized rendering. -/
def jneed : LJson → Nat
  | .null => 1
  | .bool _ => 1
  | .num _ => 1
  | .str _ => 1
  | .arr xs => 1 + jneedList xs
  | .obj fs => 1 + jneedFields fs

def jneedList : LJsonList → Nat
  | .nil => 1
  | .cons x xs => 1 + max (jneed x) (jneedList xs)

def jneedFields : LJsonFields → Nat
  | .nil => 1
  | .cons _ v fs => 1 + max (1 + jneed v) (jneedFields fs)

end

theorem sanitize_bslash_free (a b : Str) (h : ∀ c ∈ a, c ≠ bslashC) :
    sanitizeJsonBackslashes (a ++ b) = a ++ sanitizeJsonBackslashes b := by
  induction a with
  | nil => simp
  | cons c t ih =>
    have hc : c ≠ bslashC := h c (by simp)
    simp only [List.cons_append, sanitize_cons_ne c _ hc]
    rw [ih (fun x hx => h x (by simp [hx]))]

theorem isNumChar_ne_bslash (c : Char) (h : isNumChar c = true) : c ≠ bslashC := by
  rintro rfl; revert h; decide

theorem sanitize_strRender (toks : List STok) (rest : Str)
    (hwf : toks.all tokWF = true) :
    sanitizeJsonBackslashes (strRender toks ++ rest) =
      strRenderSan toks ++ sanitizeJsonBackslashes rest := by
  induction toks with
  | nil => simp [strRender, strRenderSan]
  | cons tok t ih =>
    simp only [List.all_cons, Bool.and_eq_true] at hwf
    obtain ⟨htok, ht⟩ := hwf
    have ihr := ih ht
    cases tok with
    | raw c =>
      simp only [tokWF, Bool.and_eq_true, decide_eq_true_eq] at htok
      simp only [strRender, strRenderSan, List.flatMap_cons, tokRender, tokRenderSan,
        List.cons_append, List.nil_append, List.append_assoc] at ihr ⊢
      rw [sanitize_cons_ne c _ htok.1.2, ihr]
    | esc c =>
      simp only [tokWF, decide_eq_true_eq] at htok
      have hval : c ∈ validEscapes := by
        simp only [List.mem_cons, List.not_mem_nil, or_false] at htok
        rcases htok with rfl | rfl | rfl | rfl | rfl | rfl | rfl | rfl <;> decide
      simp only [strRender, strRenderSan, List.flatMap_cons, tokRender, tokRenderSan,
        List.cons_append, List.nil_append, List.append_assoc] at ihr ⊢
      rw [sanitize_cons_valid c _ hval, ihr]
    | inv c =>
      simp only [tokWF, Bool.and_eq_true, decide_eq_true_eq] at htok
      have hnb : c ≠ bslashC := by
        intro hh; exact htok.1 (hh ▸ (by decide : bslashC ∈ validEscapes))
      simp only [strRender, strRenderSan, List.flatMap_cons, tokRender, tokRenderSan,
        List.cons_append, List.nil_append, List.append_assoc] at ihr ⊢
      rw [sanitize_cons_invalid c _ htok.1, sanitize_cons_ne c _ hnb, ihr]

mutual

theorem san_lser (l : LJson) (hwf : ljWF l = true) (rest : Str) :
    sanitizeJsonBackslashes (lser l ++ rest) = lserSan l ++ sanitizeJsonBackslashes rest := by
  cases l with
  | null => exact sanitize_bslash_free _ rest (by decide)
  | bool b => cases b <;> exact sanitize_bslash_free _ rest (by decide)
  | num lit =>
    simp only [ljWF, Bool.and_eq_true, List.all_eq_true] at hwf
    exact sanitize_bslash_free _ rest
      (fun c hc => isNumChar_ne_bslash c (hwf.2 c hc))
  | str toks =>
    simp only [ljWF] at hwf
    simp only [lser, lserSan, List.cons_append, List.append_assoc, List.singleton_append]
    rw [sanitize_cons_ne quoteC _ (by decide), sanitize_strRender toks _ hwf,
      sanitize_cons_ne quoteC _ (by decide)]
    simp
  | arr xs =>
    simp only [ljWF] at hwf
    simp only [lser, lserSan, List.cons_append, List.append_assoc, List.singleton_append]
    rw [sanitize_cons_ne lbrackC _ (by decide), san_lserElems xs hwf,
      sanitize_cons_ne rbrackC _ (by decide)]
    simp
  | obj fs =>
    simp only [ljWF] at hwf
    simp only [lser, lserSan, List.cons_append, List.append_assoc, List.singleton_append]
    rw [sanitize_cons_ne lbraceC _ (by decide), san_lserFields fs hwf,
      sanitize_cons_ne rbraceC _ (by decide)]
    simp

theorem san_lserElems (xs : LJsonList) (hwf : ljWFList xs = true) (rest : Str) :
    sanitizeJsonBackslashes (lserElems xs ++ rest) =
      lserSanElems xs ++ sanitizeJsonBackslashes rest := by
  cases xs with
  | nil => simp [lserElems, lserSanElems]
  | cons x t =>
    simp only [ljWFList, Bool.and_eq_true] at hwf
    simp only [lserElems, lserSanElems, List.append_assoc]
    rw [san_lser x hwf.1, san_lserMore t hwf.2]

theorem san_lserMore (xs : LJsonList) (hwf : ljWFList xs = true) (rest : Str) :
    sanitizeJsonBackslashes (lserMore xs ++ rest) =
      lserSanMore xs ++ sanitizeJsonBackslashes rest := by
  cases xs with
  | nil => simp [lserMore, lserSanMore]
  | cons x t =>
    simp only [ljWFList, Bool.and_eq_true] at hwf
    simp only [lserMore, lserSanMore, List.cons_append, List.append_assoc]
    rw [sanitize_cons_ne commaC _ (by decide), san_lser x hwf.1, san_lserMore t hwf.2]

theorem san_lserFields (fs : LJsonFields) (hwf : ljWFFields fs = true) (rest : Str) :
    sanitizeJsonBackslashes (lserFields fs ++ rest) =
      lserSanFields fs ++ sanitizeJsonBackslashes rest := by
  cases fs with
  | nil => simp [lserFields, lserSanFields]
  | cons k v t =>
    simp only [ljWFFields, Bool.and_eq_true] at hwf
    simp only [lserFields, lserSanFields, List.cons_append, List.append_assoc]
    rw [sanitize_cons_ne quoteC _ (by decide), sanitize_strRender k _ hwf.1.1]
    simp only [List.cons_append, List.nil_append]
    rw [sanitize_cons_ne quoteC _ (by decide), sanitize_cons_ne colonC _ (by decide),
      san_lser v hwf.1.2, san_lserFieldsMore t hwf.2]

theorem san_lserFieldsMore (fs : LJsonFields) (hwf : ljWFFields fs = true) (rest : Str) :
    sanitizeJsonBackslashes (lserFieldsMore fs ++ rest) =
      lserSanFieldsMore fs ++ sanitizeJsonBackslashes rest := by
  cases fs with
  | nil => simp [lserFieldsMore, lserSanFieldsMore]
  | cons k v t =>
    simp only [ljWFFields, Bool.and_eq_true] at hwf
    simp only [lserFieldsMore, lserSanFieldsMore, List.cons_append, List.append_assoc]
    rw [sanitize_cons_ne commaC _ (by decide), sanitize_cons_ne quoteC _ (by decide),
      sanitize_strRender k _ hwf.1.1]
    simp only [List.cons_append, List.nil_append]
    rw [sanitize_cons_ne quoteC _ (by decide), sanitize_cons_ne colonC _ (by decide),
      san_lser v hwf.1.2, san_lserFieldsMore t hwf.2]

end

theorem parseStringBody_quote (s : Str) : parseStringBody (quoteC :: s) = some ([], s) := by
  rw [parseStringBody.eq_def]; simp

theorem parseStringBody_raw (c : Char) (s : Str) (h1 : c ≠ quoteC) (h2 : c ≠ bslashC)
    (h3 : ¬ c.toNat < 32) :
    parseStringBody (c :: s) = (parseStringBody s).map (fun p => (c :: p.1, p.2)) := by
  rw [parseStringBody.eq_def]; simp [h1, h2, h3]

theorem parseStringBody_esc (e : Char) (s : Str) (he : e ≠ 'u') (d : Char)
    (hd : escDecode e = some d) :
    parseStringBody (bslashC :: e :: s) =
      (parseStringBody s).map (fun p => (d :: p.1, p.2)) := by
  rw [parseStringBody.eq_def]
  simp [he, hd, show bslashC ≠ quoteC by decide, show bslashC = bslashC from rfl]

theorem rt_string (toks : List STok) (rest : Str) (hwf : toks.all tokWF = true) :
    parseStringBody (strRenderSan toks ++ (quoteC :: rest)) = some (strDecode toks, rest) := by
  induction toks with
  | nil => simp [strRenderSan, strDecode, parseStringBody_quote]
  | cons tok t ih =>
    simp only [List.all_cons, Bool.and_eq_true] at hwf
    obtain ⟨htok, ht⟩ := hwf
    have ihr := ih ht
    cases tok with
    | raw c =>
      simp only [tokWF, Bool.and_eq_true, decide_eq_true_eq] at htok
      simp only [strRenderSan, strDecode, List.flatMap_cons, tokRenderSan, tokDecode,
        List.cons_append, List.nil_append, List.append_assoc, List.singleton_append] at ihr ⊢
      rw [parseStringBody_raw c _ htok.1.1 htok.1.2 (by omega), ihr]
      rfl
    | esc c =>
      simp only [tokWF, decide_eq_true_eq, List.mem_cons, List.not_mem_nil, or_false] at htok
      have hed : c ≠ 'u' ∧ ∃ d, escDecode c = some d := by
        rcases htok with rfl | rfl | rfl | rfl | rfl | rfl | rfl | rfl <;>
          exact ⟨by decide, _, rfl⟩
      obtain ⟨hu, d, hd⟩ := hed
      simp only [strRenderSan, strDecode, List.flatMap_cons, tokRenderSan, tokDecode,
        List.cons_append, List.nil_append, List.append_assoc, List.singleton_append] at ihr ⊢
      rw [parseStringBody_esc c _ hu d hd, ihr, hd]
      simp
    | inv c =>
      simp only [tokWF, Bool.and_eq_true, decide_eq_true_eq] at htok
      have hnq : c ≠ quoteC := by
        intro hh; exact htok.1 (hh ▸ (by decide : quoteC ∈ validEscapes))
      have hnb : c ≠ bslashC := by
        intro hh; exact htok.1 (hh ▸ (by decide : bslashC ∈ validEscapes))
      simp only [strRenderSan, strDecode, List.flatMap_cons, tokRenderSan, tokDecode,
        List.cons_append, List.nil_append, List.append_assoc, List.singleton_append] at ihr ⊢
      rw [parseStringBody_esc bslashC _ (by decide) bslashC (by decide),
        parseStringBody_raw c _ hnq hnb (by omega), ihr]
      rfl

/-- Contexts that can legally follow a serialized value: end of input or
a separator/closer (never a character that extends a number token). -/
def BoundaryOk (rest : Str) : Prop :=
  rest = [] ∨ ∃ c t, rest = c :: t ∧ (c = commaC ∨ c = rbrackC ∨ c = rbraceC)

theorem skipWs_cons_not (c : Char) (t : Str) (h : isJsonWs c = false) :
    skipWs (c :: t) = c :: t := by
  simp [skipWs, List.dropWhile_cons, h]

theorem takeWhile_append_all (p : Char → Bool) (a b : Str) (h : ∀ c ∈ a, p c = true) :
    (a ++ b).takeWhile p = a ++ b.takeWhile p := by
  induction a with
  | nil => simp
  | cons c t ih =>
    simp only [List.cons_append, List.takeWhile_cons, h c (by simp)]
    rw [ih (fun x hx => h x (by simp [hx]))]
    simp

theorem dropWhile_append_all (p : Char → Bool) (a b : Str) (h : ∀ c ∈ a, p c = true) :
    (a ++ b).dropWhile p = b.dropWhile p := by
  induction a with
  | nil => simp
  | cons c t ih =>
    simp only [List.cons_append, List.dropWhile_cons, h c (by simp)]
    simp only [if_true]
    exact ih (fun x hx => h x (by simp [hx]))

theorem isNumChar_props (c : Char) (h : isNumChar c = true) :
    isJsonWs c = false ∧ c ≠ rbrackC ∧ c ≠ rbraceC ∧ c ≠ commaC := by
  refine ⟨?_, ?_, ?_, ?_⟩
  · by_contra hw
    rw [Bool.not_eq_false] at hw
    simp only [isJsonWs, Bool.or_eq_true, decide_eq_true_eq] at hw
    rcases hw with ((rfl | rfl) | rfl) | rfl <;> revert h <;> decide
  · rintro rfl; revert h; decide
  · rintro rfl; revert h; decide
  · rintro rfl; revert h; decide

theorem digitDash_props (c : Char) (h : c.isDigit = true ∨ c = '-') :
    c ≠ quoteC ∧ c ≠ lbraceC ∧ c ≠ lbrackC ∧ c ≠ 'n' ∧ c ≠ 't' ∧ c ≠ 'f' := by
  rcases h with hd | rfl
  · refine ⟨?_, ?_, ?_, ?_, ?_, ?_⟩ <;> rintro rfl <;> revert hd <;> decide
  · decide

theorem numLit_head (lit : Str) (h : isJsonNumberLit lit = true) :
    ∃ c r, lit = c :: r ∧ (c.isDigit = true ∨ c = '-') := by
  match lit with
  | [] => simp [isJsonNumberLit, chompInt] at h
  | c :: r =>
    by_cases hc : c = '-'
    · exact ⟨c, r, rfl, Or.inr hc⟩
    · refine ⟨c, r, rfl, Or.inl ?_⟩
      by_cases h0 : c = '0'
      · subst h0; decide
      · by_cases hd : c.isDigit
        · exact hd
        · simp [isJsonNumberLit, chompInt, hc, h0, hd] at h

/-- The head of a sanitized rendering: never whitespace, never a closer
or separator. -/
theorem serSan_head (l : LJson) (hwf : ljWF l = true) :
    ∃ c t, lserSan l = c :: t ∧ isJsonWs c = false ∧
      c ≠ rbrackC ∧ c ≠ rbraceC ∧ c ≠ commaC := by
  cases l with
  | null => exact ⟨'n', _, rfl, by decide, by decide, by decide, by decide⟩
  | bool b =>
    cases b
    · exact ⟨'f', _, rfl, by decide, by decide, by decide, by decide⟩
    · exact ⟨'t', _, rfl, by decide, by decide, by decide, by decide⟩
  | num lit =>
    simp only [ljWF, Bool.and_eq_true, List.all_eq_true] at hwf
    obtain ⟨c, r, rfl, _⟩ := numLit_head lit hwf.1.1
    have hp := isNumChar_props c (hwf.2 c (by simp))
    exact ⟨c, r, rfl, hp.1, hp.2.1, hp.2.2.1, hp.2.2.2⟩
  | str toks => exact ⟨quoteC, _, rfl, by decide, by decide, by decide, by decide⟩
  | arr xs => exact ⟨lbrackC, _, rfl, by decide, by decide, by decide, by decide⟩
  | obj fs => exact ⟨lbraceC, _, rfl, by decide, by decide, by decide, by decide⟩

theorem digitDash_isNumChar (c : Char) (h : c.isDigit = true ∨ c = '-') :
    isNumChar c = true := by
  rcases h with h | rfl
  · simp [isNumChar, h]
  · decide

theorem parseValue_nullE (f : Nat) (r : Str) :
    parseValue (f + 1) ('n' :: 'u' :: 'l' :: 'l' :: r) = some (Json.null, r) := by
  rw [parseValue.eq_def]
  simp only [skipWs_cons_not _ _ (by decide : isJsonWs 'n' = false)]
  simp +decide

theorem parseValue_trueE (f : Nat) (r : Str) :
    parseValue (f + 1) ('t' :: 'r' :: 'u' :: 'e' :: r) = some (Json.bool true, r) := by
  rw [parseValue.eq_def]
  simp only [skipWs_cons_not _ _ (by decide : isJsonWs 't' = false)]
  simp +decide

theorem parseValue_falseE (f : Nat) (r : Str) :
    parseValue (f + 1) ('f' :: 'a' :: 'l' :: 's' :: 'e' :: r) = some (Json.bool false, r) := by
  rw [parseValue.eq_def]
  simp only [skipWs_cons_not _ _ (by decide : isJsonWs 'f' = false)]
  simp +decide

theorem parseValue_quoteE (f : Nat) (s : Str) :
    parseValue (f + 1) (quoteC :: s) =
      (parseStringBody s).map (fun p => (Json.str p.1, p.2)) := by
  rw [parseValue.eq_def]
  simp only [skipWs_cons_not _ _ (by decide : isJsonWs quoteC = false)]
  simp +decide

theorem parseValue_lbrackE (f : Nat) (s : Str) :
    parseValue (f + 1) (lbrackC :: s) = parseArrItems f s := by
  rw [parseValue.eq_def]
  simp only [skipWs_cons_not _ _ (by decide : isJsonWs lbrackC = false)]
  simp +decide

theorem parseValue_lbraceE (f : Nat) (s : Str) :
    parseValue (f + 1) (lbraceC :: s) = parseObjItems f s := by
  rw [parseValue.eq_def]
  simp only [skipWs_cons_not _ _ (by decide : isJsonWs lbraceC = false)]
  simp +decide

theorem parseValue_numE (f : Nat) (c : Char) (s : Str) (hcd : c.isDigit = true ∨ c = '-') :
    parseValue (f + 1) (c :: s) =
      (if isJsonNumberLit ((c :: s).takeWhile isNumChar) then
        some (Json.num ((c :: s).takeWhile isNumChar), (c :: s).dropWhile isNumChar)
      else none) := by
  have hp := digitDash_props c hcd
  have hskip : skipWs (c :: s) = c :: s :=
    skipWs_cons_not _ _ (isNumChar_props c (digitDash_isNumChar c hcd)).1
  rw [parseValue.eq_def]
  simp only [hskip]
  simp only [if_neg hp.1, if_neg hp.2.1, if_neg hp.2.2.1]
  simp only [if_neg hp.2.2.2.1, if_neg hp.2.2.2.2.1, if_neg hp.2.2.2.2.2, if_pos hcd]

theorem parseArrItems_close (f : Nat) (s : Str) :
    parseArrItems (f + 1) (rbrackC :: s) = some (Json.arr [], s) := by
  rw [parseArrItems.eq_def]
  simp only [skipWs_cons_not _ _ (by decide : isJsonWs rbrackC = false)]
  simp +decide

theorem parseArrItems_go (f : Nat) (c : Char) (s : Str) (hws : isJsonWs c = false)
    (hne : c ≠ rbrackC) :
    parseArrItems (f + 1) (c :: s) =
      match parseValue f (c :: s) with
      | some (v, r) =>
        (match parseArrMore f r with
         | some (vs, r2) => some (Json.arr (v :: vs), r2)
         | none => none)
      | none => none := by
  rw [parseArrItems.eq_def]
  simp only [skipWs_cons_not _ _ hws]
  simp only [if_neg hne]

theorem parseArrMore_close (f : Nat) (s : Str) :
    parseArrMore (f + 1) (rbrackC :: s) = some ([], s) := by
  rw [parseArrMore.eq_def]
  simp only [skipWs_cons_not _ _ (by decide : isJsonWs rbrackC = false)]
  simp +decide

theorem parseArrMore_comma (f : Nat) (s : Str) :
    parseArrMore (f + 1) (commaC :: s) =
      match parseValue f s with
      | some (v, r) =>
        (match parseArrMore f r with
         | some (vs, r2) => some (v :: vs, r2)
         | none => none)
      | none => none := by
  rw [parseArrMore.eq_def]
  simp only [skipWs_cons_not _ _ (by decide : isJsonWs commaC = false)]
  simp +decide

theorem parseObjItems_close (f : Nat) (s : Str) :
    parseObjItems (f + 1) (rbraceC :: s) = some (Json.obj [], s) := by
  rw [parseObjItems.eq_def]
  simp only [skipWs_cons_not _ _ (by decide : isJsonWs rbraceC = false)]
  simp +decide

theorem parseObjItems_go (f : Nat) (c : Char) (s : Str) (hws : isJsonWs c = false)
    (hne : c ≠ rbraceC) :
    parseObjItems (f + 1) (c :: s) =
      match parseField f (c :: s) with
      | some (kv, r) =>
        (match parseObjMore f r with
         | some (kvs, r2) => some (Json.obj (kv :: kvs), r2)
         | none => none)
      | none => none := by
  rw [parseObjItems.eq_def]
  simp only [skipWs_cons_not _ _ hws]
  simp only [if_neg hne]

theorem parseField_quote (f : Nat) (s : Str) :
    parseField (f + 1) (quoteC :: s) =
      match parseStringBody s with
      | some (k, r) =>
        (match skipWs r with
         | c2 :: r2 =>
           if c2 = colonC then
             (match parseValue f r2 with
              | some (v, r3) => some ((k, v), r3)
              | none => none)
           else none
         | [] => none)
      | none => none := by
  rw [parseField.eq_def]
  simp only [skipWs_cons_not _ _ (by decide : isJsonWs quoteC = false)]
  simp +decide

theorem parseObjMore_close (f : Nat) (s : Str) :
    parseObjMore (f + 1) (rbraceC :: s) = some ([], s) := by
  rw [parseObjMore.eq_def]
  simp only [skipWs_cons_not _ _ (by decide : isJsonWs rbraceC = false)]
  simp +decide

theorem parseObjMore_comma (f : Nat) (s : Str) :
    parseObjMore (f + 1) (commaC :: s) =
      match parseField f s with
      | some (kv, r) =>
        (match parseObjMore f r with
         | some (kvs, r2) => some (kv :: kvs, r2)
         | none => none)
      | none => none := by
  rw [parseObjMore.eq_def]
  simp only [skipWs_cons_not _ _ (by decide : isJsonWs commaC = false)]
  simp +decide

theorem jneed_pos (l : LJson) : 1 ≤ jneed l := by
  cases l <;> simp [jneed]

theorem jneedList_pos (xs : LJsonList) : 1 ≤ jneedList xs := by
  cases xs <;> simp [jneedList]

theorem jneedFields_pos (fs : LJsonFields) : 1 ≤ jneedFields fs := by
  cases fs <;> simp [jneedFields]

theorem boundary_more (t : LJsonList) (rest : Str) :
    BoundaryOk (lserSanMore t ++ (rbrackC :: rest)) := by
  cases t with
  | nil => exact Or.inr ⟨rbrackC, rest, by simp [lserSanMore], Or.inr (Or.inl rfl)⟩
  | cons y ys =>
    exact Or.inr ⟨commaC, lserSan y ++ lserSanMore ys ++ rbrackC :: rest,
      by simp [lserSanMore], Or.inl rfl⟩

theorem boundary_fieldsMore (t : LJsonFields) (rest : Str) :
    BoundaryOk (lserSanFieldsMore t ++ (rbraceC :: rest)) := by
  cases t with
  | nil => exact Or.inr ⟨rbraceC, rest, by simp [lserSanFieldsMore], Or.inr (Or.inr rfl)⟩
  | cons k v fs =>
    exact Or.inr ⟨commaC,
      quoteC :: strRenderSan k ++ [quoteC, colonC] ++ lserSan v ++ lserSanFieldsMore fs
        ++ rbraceC :: rest,
      by simp [lserSanFieldsMore], Or.inl rfl⟩

mutual

theorem rt_value (l : LJson) (hwf : ljWF l = true) :
    ∀ fuel rest, jneed l ≤ fuel → BoundaryOk rest →
      parseValue fuel (lserSan l ++ rest) = some (lvalue l, rest) := by
  cases l with
  | null =>
    intro fuel rest hf _
    obtain ⟨f, rfl⟩ : ∃ f, fuel = f + 1 := ⟨fuel - 1, by simp [jneed] at hf; omega⟩
    simpa [lserSan, lvalue] using parseValue_nullE f rest
  | bool b =>
    intro fuel rest hf _
    obtain ⟨f, rfl⟩ : ∃ f, fuel = f + 1 := ⟨fuel - 1, by simp [jneed] at hf; omega⟩
    cases b
    · simpa [lserSan, lvalue] using parseValue_falseE f rest
    · simpa [lserSan, lvalue] using parseValue_trueE f rest
  | num lit =>
    intro fuel rest hf hrest
    obtain ⟨f, rfl⟩ : ∃ f, fuel = f + 1 := ⟨fuel - 1, by simp [jneed] at hf; omega⟩
    simp only [ljWF, Bool.and_eq_true, List.all_eq_true] at hwf
    obtain ⟨⟨hnum, _⟩, hall⟩ := hwf
    obtain ⟨c, r, hlit, hcd⟩ := numLit_head lit hnum
    subst hlit
    simp only [lserSan, List.cons_append]
    rw [parseValue_numE f c (r ++ rest) hcd]
    have hallcr : ∀ x ∈ (c :: r), isNumChar x = true := fun x hx => hall x hx
    have htw0 : rest.takeWhile isNumChar = [] ∧ rest.dropWhile isNumChar = rest := by
      rcases hrest with rfl | ⟨b, t, rfl, hb⟩
      · simp
      · rcases hb with rfl | rfl | rfl
        · simp [List.takeWhile_cons, List.dropWhile_cons,
            (by decide : isNumChar commaC = false)]
        · simp [List.takeWhile_cons, List.dropWhile_cons,
            (by decide : isNumChar rbrackC = false)]
        · simp [List.takeWhile_cons, List.dropWhile_cons,
            (by decide : isNumChar rbraceC = false)]
    have htw : ((c :: r) ++ rest).takeWhile isNumChar = c :: r := by
      rw [takeWhile_append_all _ _ _ hallcr, htw0.1, List.append_nil]
    have hdw : ((c :: r) ++ rest).dropWhile isNumChar = rest := by
      rw [dropWhile_append_all _ _ _ hallcr, htw0.2]
    simp only [← List.cons_append, htw, hdw, hnum, if_pos]
    rfl
  | str toks =>
    intro fuel rest hf _
    obtain ⟨f, rfl⟩ : ∃ f, fuel = f + 1 := ⟨fuel - 1, by simp [jneed] at hf; omega⟩
    simp only [ljWF] at hwf
    simp only [lserSan, List.cons_append, List.append_assoc, List.singleton_append,
      List.nil_append]
    rw [parseValue_quoteE f _, rt_string toks rest hwf]
    rfl
  | arr xs =>
    intro fuel rest hf _
    obtain ⟨f, rfl⟩ : ∃ f, fuel = f + 1 := ⟨fuel - 1, by simp [jneed] at hf; omega⟩
    simp only [ljWF] at hwf
    simp only [jneed] at hf
    simp only [lserSan, List.cons_append, List.append_assoc, List.singleton_append,
      List.nil_append]
    rw [parseValue_lbrackE f _, rt_elems xs hwf f rest (by omega)]
    rfl
  | obj fs =>
    intro fuel rest hf _
    obtain ⟨f, rfl⟩ : ∃ f, fuel = f + 1 := ⟨fuel - 1, by simp [jneed] at hf; omega⟩
    simp only [ljWF] at hwf
    simp only [jneed] at hf
    simp only [lserSan, List.cons_append, List.append_assoc, List.singleton_append,
      List.nil_append]
    rw [parseValue_lbraceE f _, rt_fields fs hwf f rest (by omega)]
    rfl

theorem rt_elems (xs : LJsonList) (hwf : ljWFList xs = true) :
    ∀ fuel rest, jneedList xs ≤ fuel →
      parseArrItems fuel (lserSanElems xs ++ (rbrackC :: rest)) =
        some (Json.arr (lvalueList xs), rest) := by
  cases xs with
  | nil =>
    intro fuel rest hf
    obtain ⟨f, rfl⟩ : ∃ f, fuel = f + 1 := ⟨fuel - 1, by simp [jneedList] at hf; omega⟩
    simpa [lserSanElems, lvalueList] using parseArrItems_close f rest
  | cons x t =>
    intro fuel rest hf
    obtain ⟨f, rfl⟩ : ∃ f, fuel = f + 1 := ⟨fuel - 1, by simp [jneedList] at hf; omega⟩
    simp only [ljWFList, Bool.and_eq_true] at hwf
    simp only [jneedList] at hf
    simp only [lserSanElems, List.append_assoc]
    obtain ⟨c, s, hser, hws, hnrb, _, _⟩ := serSan_head x hwf.1
    rw [hser, List.cons_append, parseArrItems_go f c _ hws hnrb, ← List.cons_append, ← hser,
      rt_value x hwf.1 f _ (by omega) (boundary_more t rest)]
    dsimp only
    rw [rt_elemsMore t hwf.2 f rest (by omega)]
    rfl

theorem rt_elemsMore (xs : LJsonList) (hwf : ljWFList xs = true) :
    ∀ fuel rest, jneedList xs ≤ fuel →
      parseArrMore fuel (lserSanMore xs ++ (rbrackC :: rest)) =
        some (lvalueList xs, rest) := by
  cases xs with
  | nil =>
    intro fuel rest hf
    obtain ⟨f, rfl⟩ : ∃ f, fuel = f + 1 := ⟨fuel - 1, by simp [jneedList] at hf; omega⟩
    simpa [lserSanMore, lvalueList] using parseArrMore_close f rest
  | cons x t =>
    intro fuel rest hf
    obtain ⟨f, rfl⟩ : ∃ f, fuel = f + 1 := ⟨fuel - 1, by simp [jneedList] at hf; omega⟩
    simp only [ljWFList, Bool.and_eq_true] at hwf
    simp only [jneedList] at hf
    simp only [lserSanMore, List.cons_append, List.append_assoc]
    rw [parseArrMore_comma f _,
      rt_value x hwf.1 f _ (by omega) (boundary_more t rest)]
    dsimp only
    rw [rt_elemsMore t hwf.2 f rest (by omega)]
    rfl

theorem rt_fields (fs : LJsonFields) (hwf : ljWFFields fs = true) :
    ∀ fuel rest, jneedFields fs ≤ fuel →
      parseObjItems fuel (lserSanFields fs ++ (rbraceC :: rest)) =
        some (Json.obj (lvalueFields fs), rest) := by
  cases fs with
  | nil =>
    intro fuel rest hf
    obtain ⟨f, rfl⟩ : ∃ f, fuel = f + 1 := ⟨fuel - 1, by simp [jneedFields] at hf; omega⟩
    simpa [lserSanFields, lvalueFields] using parseObjItems_close f rest
  | cons k v t =>
    intro fuel rest hf
    obtain ⟨f, rfl⟩ : ∃ f, fuel = f + 1 := ⟨fuel - 1, by simp [jneedFields] at hf; omega⟩
    simp only [ljWFFields, Bool.and_eq_true] at hwf
    simp only [jneedFields] at hf
    have hv := jneed_pos v
    obtain ⟨f2, rfl⟩ : ∃ f2, f = f2 + 1 := ⟨f - 1, by omega⟩
    simp only [lserSanFields, List.cons_append, List.append_assoc, List.singleton_append]
    rw [parseObjItems_go (f2 + 1) quoteC _ (by decide) (by decide),
      parseField_quote f2 _, rt_string k _ hwf.1.1]
    dsimp only
    rw [skipWs_cons_not _ _ (by decide : isJsonWs colonC = false)]
    dsimp only
    simp only [if_true, List.nil_append]
    rw [rt_value v hwf.1.2 f2 _ (by omega) (boundary_fieldsMore t rest)]
    dsimp only
    rw [rt_fieldsMore t hwf.2 (f2 + 1) rest (by omega)]
    rfl

theorem rt_fieldsMore (fs : LJsonFields) (hwf : ljWFFields fs = true) :
    ∀ fuel rest, jneedFields fs ≤ fuel →
      parseObjMore fuel (lserSanFieldsMore fs ++ (rbraceC :: rest)) =
        some (lvalueFields fs, rest) := by
  cases fs with
  | nil =>
    intro fuel rest hf
    obtain ⟨f, rfl⟩ : ∃ f, fuel = f + 1 := ⟨fuel - 1, by simp [jneedFields] at hf; omega⟩
    simpa [lserSanFieldsMore, lvalueFields] using parseObjMore_close f rest
  | cons k v t =>
    intro fuel rest hf
    obtain ⟨f, rfl⟩ : ∃ f, fuel = f + 1 := ⟨fuel - 1, by simp [jneedFields] at hf; omega⟩
    simp only [ljWFFields, Bool.and_eq_true] at hwf
    simp only [jneedFields] at hf
    have hv := jneed_pos v
    obtain ⟨f2, rfl⟩ : ∃ f2, f = f2 + 1 := ⟨f - 1, by omega⟩
    simp only [lserSanFieldsMore, List.cons_append, List.append_assoc, List.singleton_append]
    rw [parseObjMore_comma (f2 + 1) _,
      parseField_quote f2 _, rt_string k _ hwf.1.1]
    dsimp only
    rw [skipWs_cons_not _ _ (by decide : isJsonWs colonC = false)]
    dsimp only
    simp only [if_true, List.nil_append]
    rw [rt_value v hwf.1.2 f2 _ (by omega) (boundary_fieldsMore t rest)]
    dsimp only
    rw [rt_fieldsMore t hwf.2 (f2 + 1) rest (by omega)]
    rfl

end

theorem lserSan_pos (l : LJson) (hwf : ljWF l = true) : 1 ≤ (lserSan l).length := by
  cases l with
  | num lit =>
    simp only [ljWF, Bool.and_eq_true] at hwf
    have := hwf.1.2
    simp only [lserSan]
    cases lit with
    | nil => simp [List.isEmpty] at this
    | cons c t => simp
  | null => simp [lserSan]
  | bool b => cases b <;> simp [lserSan]
  | str toks => simp [lserSan]
  | arr xs => simp [lserSan]
  | obj fs => simp [lserSan]

mutual

theorem bound_v (l : LJson) (hwf : ljWF l = true) :
    jneed l ≤ (lserSan l).length + 1 := by
  cases l with
  | null => simp [jneed, lserSan]
  | bool b => cases b <;> simp [jneed, lserSan]
  | num lit => simp [jneed]
  | str toks => simp [jneed]
  | arr xs =>
    simp only [ljWF] at hwf
    have h := bound_list xs hwf
    simp only [jneed, lserSan, List.length_cons, List.length_append, List.length_singleton]
    omega
  | obj fs =>
    simp only [ljWF] at hwf
    have h := bound_fields fs hwf
    simp only [jneed, lserSan, List.length_cons, List.length_append, List.length_singleton]
    omega

theorem bound_list (xs : LJsonList) (hwf : ljWFList xs = true) :
    jneedList xs ≤ (lserSanElems xs).length + 2 := by
  cases xs with
  | nil => simp [jneedList, lserSanElems]
  | cons x t =>
    simp only [ljWFList, Bool.and_eq_true] at hwf
    have h1 := bound_v x hwf.1
    have h2 := bound_more t hwf.2
    have h3 := lserSan_pos x hwf.1
    simp only [jneedList, lserSanElems, List.length_append]
    omega

theorem bound_more (xs : LJsonList) (hwf : ljWFList xs = true) :
    jneedList xs ≤ (lserSanMore xs).length + 2 := by
  cases xs with
  | nil => simp [jneedList, lserSanMore]
  | cons x t =>
    simp only [ljWFList, Bool.and_eq_true] at hwf
    have h1 := bound_v x hwf.1
    have h2 := bound_more t hwf.2
    simp only [jneedList, lserSanMore, List.length_cons, List.length_append]
    omega

theorem bound_fields (fs : LJsonFields) (hwf : ljWFFields fs = true) :
    jneedFields fs ≤ (lserSanFields fs).length + 2 := by
  cases fs with
  | nil => simp [jneedFields, lserSanFields]
  | cons k v t =>
    simp only [ljWFFields, Bool.and_eq_true] at hwf
    have h1 := bound_v v hwf.1.2
    have h2 := bound_fieldsMore t hwf.2
    simp only [jneedFields, lserSanFields, List.length_cons, List.length_append]
    omega

theorem bound_fieldsMore (fs : LJsonFields) (hwf : ljWFFields fs = true) :
    jneedFields fs ≤ (lserSanFieldsMore fs).length + 2 := by
  cases fs with
  | nil => simp [jneedFields, lserSanFieldsMore]
  | cons k v t =>
    simp only [ljWFFields, Bool.and_eq_true] at hwf
    have h1 := bound_v v hwf.1.2
    have h2 := bound_fieldsMore t hwf.2
    simp only [jneedFields, lserSanFieldsMore, List.length_cons, List.length_append]
    omega

end

/-- Claim C7: for every JSON-like text that is well-formed except that
string literals may contain invalid escapes (a backslash before a
character outside the valid JSON escape set, e.g. the text of a value
containing a lone-backslash `sigma`), `sanitizeJsonBackslashes` doubles
exactly the invalid-escape backslashes (first conjunct) and the result
parses to the value in which each such field holds the literal
two-character sequence backslash-then-character (`lvalue`/`tokDecode`
map an invalid escape to that two-character sequence). -/
theorem sanitizeJsonBackslashes_recovers (l : LJson) (hwf : ljWF l = true) :
    sanitizeJsonBackslashes (lser l) = lserSan l ∧
    jsonParse (sanitizeJsonBackslashes (lser l)) = some (lvalue l) := by
  have hsan : sanitizeJsonBackslashes (lser l) = lserSan l := by
    have h := san_lser l hwf []
    simpa [sanitizeJsonBackslashes] using h
  refine ⟨hsan, ?_⟩
  rw [hsan]
  have hb : jneed l ≤ (lserSan l).length + 1 := bound_v l hwf
  have hrt := rt_value l hwf ((lserSan l).length + 1) [] hb (Or.inl rfl)
  rw [List.append_nil] at hrt
  unfold jsonParse
  rw [hrt]
  simp [skipWs]

/-- A concrete JSON-like text: an object whose field `x` holds the text
`\sigma` with its invalid lone-backslash escape. -/
def c7Example : LJson :=
  LJson.obj (LJsonFields.cons [STok.raw 'x']
    (LJson.str [STok.inv 's', STok.raw 'i', STok.raw 'g', STok.raw 'm', STok.raw 'a'])
    LJsonFields.nil)

/-- Witness for C7 at the `\sigma` payload of the spec: sanitization
doubles the backslash and the parse yields the field holding the literal
backslash-s-i-g-m-a. -/
theorem sanitizeJsonBackslashes_recovers_witness :
    ljWF c7Example = true ∧
    sanitizeJsonBackslashes (lser c7Example) = lserSan c7Example ∧
    jsonParse (sanitizeJsonBackslashes (lser c7Example)) =
      some (Json.obj [(['x'], Json.str [bslashC, 's', 'i', 'g', 'm', 'a'])]) := by
  have h := sanitizeJsonBackslashes_recovers c7Example (by decide)
  refine ⟨by decide, h.1, ?_⟩
  rw [h.2]
  simp [c7Example, lvalue, lvalueFields, strDecode, tokDecode, escDecode]

/-! ## Retry policy (`withRetry` / `isRateLimitError`, generate-lessons.ts)

An attempt oracle stands in for the async operation: `oracle i` is the
outcome of the `i`-th invocation (0-based, matching the loop variable).
The run records the observable events: each invocation and each backoff
sleep (whose duration `baseMs * 2^attempt + jitter` is abstracted, the
claims being about when sleeps happen, not how long they last). -/

/-- A JavaScript thrown value: an `Error` carrying a message, or any
other value (`isRateLimitError` first checks `err instanceof Error`). -/
inductive JSErr where
  | errObj (msg : Str) : JSErr
  | other : JSErr
deriving DecidableEq, Repr

/-- Model of `isRateLimitError`: an `Error` whose lower-cased message
contains one of the transient-classified substrings. -/
def isRateLimitError : JSErr → Bool
  | .other => false
  | .errObj m =>
    let lm := toLowerL m
    containsSubstr lm ("rate limit").toList ||
    containsSubstr lm ("429").toList ||
    containsSubstr lm ("too many requests").toList ||
    containsSubstr lm ("free credits temporarily").toList ||
    containsSubstr lm ("resource exhausted").toList ||
    containsSubstr lm ("quota").toList

inductive REvent where
  | callE (attempt : Nat) : REvent
  | sleepE (attempt : Nat) : REvent
deriving DecidableEq, Repr

structure RetryRun (T : Type) where
  result : Except JSErr T
  events : List REvent

/-- Whether an event is an invocation of the operation. -/
def isCallEvent : REvent → Bool
  | .callE _ => true
  | .sleepE _ => false

/-- The retry loop of `withRetry`: attempts `0..maxRetries`; on an error
that is rate-limit-classified while attempts remain, sleep and retry;
otherwise rethrow immediately.  `remaining` counts loop iterations left
(`maxRetries + 1` at entry); the 0 case is the dead `throw lastErr` after
the loop. -/
def withRetryGo (oracle : Nat → Except JSErr T) (maxRetries : Nat) :
    Nat → Nat → RetryRun T
  | _, 0 => ⟨.error .other, []⟩
  | attempt, Nat.succ rem =>
    match oracle attempt with
    | .ok v => ⟨.ok v, [.callE attempt]⟩
    | .error e =>
      if attempt < maxRetries ∧ isRateLimitError e = true then
        let r := withRetryGo oracle maxRetries (attempt + 1) rem
        ⟨r.result, .callE attempt :: .sleepE attempt :: r.events⟩
      else ⟨.error e, [.callE attempt]⟩

/-- Model of `withRetry label fn maxRetries baseMs` over the oracle. -/
def withRetry (oracle : Nat → Except JSErr T) (maxRetries : Nat) : RetryRun T :=
  withRetryGo oracle maxRetries 0 (maxRetries + 1)

theorem withRetryGo_ok (oracle : Nat → Except JSErr T) (maxRetries : Nat)
    (k : Nat) (v : T) :
    ∀ a rem, a + k ≤ maxRetries → k + 1 ≤ rem →
      (∀ i, i < k → ∃ e, oracle (a + i) = .error e ∧ isRateLimitError e = true) →
      oracle (a + k) = .ok v →
      withRetryGo oracle maxRetries a rem =
        ⟨.ok v, ((List.range' a k).flatMap fun i => [.callE i, .sleepE i]) ++
          [.callE (a + k)]⟩ := by
  induction k with
  | zero =>
    intro a rem _ hrem _ hok
    obtain ⟨r, rfl⟩ : ∃ r, rem = r + 1 := ⟨rem - 1, by omega⟩
    simp only [Nat.add_zero] at hok
    simp [withRetryGo, hok, List.range']
  | succ k ih =>
    intro a rem hle hrem hfail hok
    obtain ⟨r, rfl⟩ : ∃ r, rem = r + 1 := ⟨rem - 1, by omega⟩
    obtain ⟨e, he, hrl⟩ := hfail 0 (by omega)
    simp only [Nat.add_zero] at he
    have hcond : a < maxRetries ∧ isRateLimitError e = true := ⟨by omega, hrl⟩
    have hrec := ih (a + 1) r (by omega) (by omega)
      (fun i hi => by
        obtain ⟨e2, he2, hrl2⟩ := hfail (i + 1) (by omega)
        exact ⟨e2, by rw [show a + 1 + i = a + (i + 1) by omega]; exact he2, hrl2⟩)
      (by rw [show a + 1 + k = a + (k + 1) by omega]; exact hok)
    simp only [withRetryGo, he, if_pos hcond, hrec]
    rw [List.range'_succ]
    simp only [List.flatMap_cons, List.cons_append, List.append_assoc,
      List.singleton_append]
    rw [show a + 1 + k = a + (k + 1) by omega]
    simp

theorem filter_calls_pairs (n : Nat) : ∀ s,
    (((List.range' s n).flatMap fun i =>
        ([REvent.callE i, REvent.sleepE i] : List REvent)).filter isCallEvent).length = n := by
  induction n with
  | zero => intro s; simp [List.range']
  | succ m ih =>
    intro s
    rw [List.range'_succ]
    simp only [List.flatMap_cons, List.filter_append, List.length_append, ih (s + 1)]
    have hfl : List.filter isCallEvent [REvent.callE s, REvent.sleepE s] = [REvent.callE s] := by
      simp [List.filter, isCallEvent]
    rw [hfl]
    simp
    omega

/-- Claim C4: an operation failing with transient-classified errors
exactly `k < R` times and then succeeding returns the success value; the
event trace is call/sleep pairs for the failures followed by the final
call — exactly `k+1` invocations, a sleep only between attempts and
never after the successful one. -/
theorem withRetry_transient_then_ok (oracle : Nat → Except JSErr T)
    (maxRetries k : Nat) (v : T) (hk : k < maxRetries)
    (hfail : ∀ i, i < k → ∃ e, oracle i = .error e ∧ isRateLimitError e = true)
    (hok : oracle k = .ok v) :
    (withRetry oracle maxRetries).result = .ok v ∧
    (withRetry oracle maxRetries).events =
      ((List.range k).flatMap fun i => [.callE i, .sleepE i]) ++ [.callE k] ∧
    ((withRetry oracle maxRetries).events.filter isCallEvent).length = k + 1 ∧
    (withRetry oracle maxRetries).events.getLast? = some (.callE k) := by
  have h := withRetryGo_ok oracle maxRetries k v 0 (maxRetries + 1)
    (by omega) (by omega) (fun i hi => by simpa using hfail i hi) (by simpa using hok)
  rw [withRetry, h]
  dsimp only
  refine ⟨rfl, ?_, ?_, ?_⟩
  · rw [List.range_eq_range']
    simp
  · simp only [List.filter_append, List.length_append, filter_calls_pairs k 0]
    simp [isCallEvent]
  · simp

/-- Claim C5: an operation whose first invocation fails with an error not
classified as transient is invoked exactly once: the error propagates
immediately with no sleep and no further attempts. -/
theorem withRetry_nontransient_once (oracle : Nat → Except JSErr T)
    (maxRetries : Nat) (e : JSErr) (h0 : oracle 0 = .error e)
    (hrl : isRateLimitError e = false) :
    (withRetry oracle maxRetries).result = .error e ∧
    (withRetry oracle maxRetries).events = [.callE 0] := by
  rw [withRetry]
  simp [withRetryGo, h0, hrl]

/-- An operation that hits the rate limit twice, then succeeds. -/
def c4Oracle : Nat → Except JSErr Nat :=
  fun i => if i < 2 then .error (JSErr.errObj ("rate limit exceeded").toList) else .ok 7

/-- Witness for C4 at k = 2 transient failures, R = 6. -/
theorem withRetry_transient_then_ok_witness :
    (withRetry c4Oracle 6).result = .ok 7 ∧
    (withRetry c4Oracle 6).events =
      ((List.range 2).flatMap fun i => [REvent.callE i, REvent.sleepE i]) ++
        [REvent.callE 2] ∧
    ((withRetry c4Oracle 6).events.filter isCallEvent).length = 2 + 1 ∧
    (withRetry c4Oracle 6).events.getLast? = some (REvent.callE 2) :=
  withRetry_transient_then_ok c4Oracle 6 2 7 (by decide)
    (fun i hi =>
      ⟨JSErr.errObj ("rate limit exceeded").toList, by simp [c4Oracle, hi], by decide⟩)
    rfl

/-- An operation that always fails with a non-transient error. -/
def c5Oracle : Nat → Except JSErr Nat :=
  fun _ => .error (JSErr.errObj ("malformed input").toList)

/-- Witness for C5: a non-transient error is not retried. -/
theorem withRetry_nontransient_once_witness :
    (withRetry c5Oracle 6).result =
      .error (JSErr.errObj ("malformed input").toList) ∧
    (withRetry c5Oracle 6).events = [REvent.callE 0] :=
  withRetry_nontransient_once c5Oracle 6 (JSErr.errObj ("malformed input").toList)
    rfl (by decide)

/-! ## Lesson generation (`generateLesson`, generate-lessons.ts) and the
agent runtime (`AgentRuntime.runJson`, agentRuntime.ts)

The external completion call is abstracted as its outcome: an error (the
exception leaving `withRetry`) or the response text.  Field extraction
from the parsed JSON follows the declared TypeScript types: `x || dflt`
on a string-typed field yields the string when non-empty, otherwise the
default; `Array.isArray(x) ? ... : []` yields the elements of an array
field, else the empty list. -/

structure SubsectionM where
  number : Option Str
  title : Str
  keyConcepts : List Str
  memorizeables : List Str
deriving DecidableEq, Repr

structure ChapterInfoM where
  chapterNumber : Option Str
  chapterTitle : Str
  summary : Str
deriving DecidableEq, Repr

structure PracticeQuestionM where
  qtype : Str
  question : Str
  choices : Option (List Str)
  answer : Str
  explanation : Str
deriving DecidableEq, Repr

structure DrillM where
  prompt : Str
  answer : Str
  category : Str
deriving DecidableEq, Repr

structure GeneratedLessonM where
  sectionNumber : Option Str
  sectionTitle : Str
  chapterNumber : Option Str
  chapterTitle : Str
  overview : Str
  instructionalText : Str
  workedExamples : List Str
  keyTakeaways : List Str
  practiceQuestions : List PracticeQuestionM
  memorizeableDrills : List DrillM
deriving DecidableEq, Repr

/-- Property access on a parsed JSON value (duplicate keys: the last one
wins, as `JSON.parse` builds the object; access on a non-object yields
`undefined`, i.e. `none`). -/
def jsonGetField (j : Json) (k : Str) : Option Json :=
  match j with
  | Json.obj fields => (fields.reverse.find? (fun kv => kv.1 = k)).map (·.2)
  | _ => none

/-- `parsed.k || dflt` on a string-typed field. -/
def strFieldOr (j : Json) (k : Str) (dflt : Str) : Str :=
  match jsonGetField j k with
  | some (Json.str s) => if s = [] then dflt else s
  | _ => dflt

/-- `Array.isArray(parsed.k) ? parsed.k : []`, elements read as strings
per their declared type. -/
def strArrField (j : Json) (k : Str) : List Str :=
  match jsonGetField j k with
  | some (Json.arr xs) =>
    xs.map (fun x => match x with | Json.str s => s | _ => [])
  | _ => []

/-- One practice question built from a parsed element (missing fields
default as in the source). -/
def buildQuestion (q : Json) : PracticeQuestionM :=
  { qtype := strFieldOr q ("type").toList ("short_answer").toList
    question := strFieldOr q ("question").toList []
    choices :=
      match jsonGetField q ("choices").toList with
      | some (Json.arr xs) =>
        some (xs.map (fun x => match x with | Json.str s => s | _ => []))
      | _ => none
    answer := strFieldOr q ("answer").toList []
    explanation := strFieldOr q ("explanation").toList [] }

def buildDrill (d : Json) : DrillM :=
  { prompt := strFieldOr d ("prompt").toList []
    answer := strFieldOr d ("answer").toList []
    category := strFieldOr d ("category").toList ("fact").toList }

/-- The lesson built from a successfully parsed response (the success
branch of `generateLesson`). -/
def buildLesson (ch : ChapterInfoM) (sub : SubsectionM) (parsed : Json) : GeneratedLessonM :=
  { sectionNumber := sub.number
    sectionTitle := sub.title
    chapterNumber := ch.chapterNumber
    chapterTitle := ch.chapterTitle
    overview := strFieldOr parsed ("overview").toList []
    instructionalText := strFieldOr parsed ("instructionalText").toList []
    workedExamples := strArrField parsed ("workedExamples").toList
    keyTakeaways := strArrField parsed ("keyTakeaways").toList
    practiceQuestions :=
      match jsonGetField parsed ("practiceQuestions").toList with
      | some (Json.arr xs) => xs.map buildQuestion
      | _ => []
    memorizeableDrills :=
      match jsonGetField parsed ("memorizeableDrills").toList with
      | some (Json.arr xs) => xs.map buildDrill
      | _ => [] }

/-- One fallback drill from a memorizable entry (the catch branch of
`generateLesson`): split on `": "`, lower-case the category, keep the
first 50 characters of the remainder in the prompt. -/
def fallbackDrill (m : Str) : DrillM :=
  let parts := splitOnSub (colonC :: [' ']) m
  let catPart := parts.headD []
  let rest := parts.tail
  let cat := toLowerL catPart
  let restJoined := joinSep (colonC :: [' ']) rest
  { prompt := ("What is the ").toList ++ cat ++ (colonC :: [' ']) ++
      restJoined.take 50 ++ ("...?").toList
    answer := restJoined
    category :=
      if cat = ("formula").toList ∨ cat = ("definition").toList ∨ cat = ("fact").toList
      then cat else ("fact").toList }

/-- The deterministic fallback lesson computed from the unit's own
specification (the catch branch of `generateLesson`). -/
def fallbackLesson (ch : ChapterInfoM) (sub : SubsectionM) : GeneratedLessonM :=
  { sectionNumber := sub.number
    sectionTitle := sub.title
    chapterNumber := ch.chapterNumber
    chapterTitle := ch.chapterTitle
    overview := ("Section on ").toList ++ sub.title ++ [Char.ofNat 46]
    instructionalText := ("This section covers: ").toList ++
      joinSep (';' :: [' ']) sub.keyConcepts ++ [Char.ofNat 46]
    workedExamples := []
    keyTakeaways := sub.keyConcepts.take 3
    practiceQuestions := []
    memorizeableDrills := sub.memorizeables.map fallbackDrill }

/-- Model of `generateLesson`: the whole body is a `try`/`catch`; any
failure of the external call (including exhausted retries) or of the
recovery parser lands in the catch branch, which returns the fallback
lesson. -/
def generateLesson (ch : ChapterInfoM) (sub : SubsectionM)
    (ext : Except JSErr Str) : GeneratedLessonM :=
  match ext with
  | .error _ => fallbackLesson ch sub
  | .ok raw =>
    match parseJsonResponse (trimL raw) with
    | .ok parsed => buildLesson ch sub parsed
    | .error _ => fallbackLesson ch sub

/-- Result of `AgentRuntime.runJson`, reduced to the fields the claim is
about. -/
structure RunJsonOut (T : Type) where
  data : T
  fallbackUsed : Bool
  attemptCount : Nat

/-- One attempt of `runJson`: the external call, then
`parseJsonFromModelText` on the trimmed text, then the caller's `parse`;
a failure anywhere is the attempt's failure. -/
def runJsonAttempt (oracle : Nat → Except JSErr Str)
    (parseF : Json → Except JSErr T) (attempt : Nat) : Except JSErr T :=
  match oracle attempt with
  | .error e => .error e
  | .ok raw =>
    match parseJsonFromModelText (trimL raw) with
    | .error m => .error (JSErr.errObj m)
    | .ok j => parseF j

/-- The attempt loop of `runJson` (attempts `1..maxAttempts`; when all
fail, the caller-supplied fallback is returned with `fallbackUsed`). -/
def runJsonGo (oracle : Nat → Except JSErr Str) (parseF : Json → Except JSErr T)
    (fallbackV : T) (maxAttempts : Nat) : Nat → Nat → RunJsonOut T
  | _, 0 => ⟨fallbackV, true, maxAttempts⟩
  | attempt, Nat.succ rem =>
    match runJsonAttempt oracle parseF attempt with
    | .ok d => ⟨d, false, attempt⟩
    | .error _ => runJsonGo oracle parseF fallbackV maxAttempts (attempt + 1) rem

/-- Model of `AgentRuntime.runJson`: mock mode returns the fallback
immediately; live mode runs `max 1 (retryCount + 1)` attempts and falls
back when they are exhausted.  The function is total: no exception
reaches the caller. -/
def runJson (mock : Bool) (oracle : Nat → Except JSErr Str)
    (parseF : Json → Except JSErr T) (fallbackV : T) (retryCount : Nat) : RunJsonOut T :=
  if mock then ⟨fallbackV, true, 1⟩
  else
    let maxAttempts := max 1 (retryCount + 1)
    runJsonGo oracle parseF fallbackV maxAttempts 1 maxAttempts

theorem runJsonGo_cases (oracle : Nat → Except JSErr Str)
    (parseF : Json → Except JSErr T) (fallbackV : T) (maxAttempts : Nat) :
    ∀ rem attempt,
      (runJsonGo oracle parseF fallbackV maxAttempts attempt rem =
        ⟨fallbackV, true, maxAttempts⟩) ∨
      (∃ a, (runJsonGo oracle parseF fallbackV maxAttempts attempt rem).fallbackUsed = false ∧
        runJsonAttempt oracle parseF a =
          .ok (runJsonGo oracle parseF fallbackV maxAttempts attempt rem).data) := by
  intro rem
  induction rem with
  | zero => intro attempt; exact Or.inl rfl
  | succ r ih =>
    intro attempt
    rw [runJsonGo]
    cases hA : runJsonAttempt oracle parseF attempt with
    | ok d => exact Or.inr ⟨attempt, rfl, by rw [hA]⟩
    | error e => exact ih (attempt + 1)

/-- Claim C2: a dispatched unit never surfaces an exception.
`generateLesson` (total by construction) returns either the lesson built
from a successfully parsed response or the deterministic fallback lesson
computed from the subsection itself, for every outcome of the external
call; `AgentRuntime.runJson` likewise resolves every run either to a
successfully parsed value or to the caller-supplied fallback value with
the fallback marker set. -/
theorem unit_never_throws :
    (∀ (ch : ChapterInfoM) (sub : SubsectionM) (ext : Except JSErr Str),
      generateLesson ch sub ext = fallbackLesson ch sub ∨
      ∃ raw parsed, ext = .ok raw ∧ parseJsonResponse (trimL raw) = .ok parsed ∧
        generateLesson ch sub ext = buildLesson ch sub parsed) ∧
    (∀ (T : Type) (mock : Bool) (oracle : Nat → Except JSErr Str)
        (parseF : Json → Except JSErr T) (fallbackV : T) (retryCount : Nat),
      ((runJson mock oracle parseF fallbackV retryCount).data = fallbackV ∧
        (runJson mock oracle parseF fallbackV retryCount).fallbackUsed = true) ∨
      ((runJson mock oracle parseF fallbackV retryCount).fallbackUsed = false ∧
        ∃ a, runJsonAttempt oracle parseF a =
          .ok (runJson mock oracle parseF fallbackV retryCount).data)) := by
  constructor
  · intro ch sub ext
    cases ext with
    | error e => exact Or.inl rfl
    | ok raw =>
      cases hp : parseJsonResponse (trimL raw) with
      | ok parsed =>
        exact Or.inr ⟨raw, parsed, rfl, hp, by simp [generateLesson, hp]⟩
      | error m => exact Or.inl (by simp [generateLesson, hp])
  · intro T mock oracle parseF fallbackV retryCount
    by_cases hm : mock = true
    · subst hm
      exact Or.inl ⟨rfl, rfl⟩
    · have hm' : mock = false := by simpa using hm
      subst hm'
      have h := runJsonGo_cases oracle parseF fallbackV (max 1 (retryCount + 1))
        (max 1 (retryCount + 1)) 1
      unfold runJson
      simp only [Bool.false_eq_true, if_false]
      rcases h with h | ⟨a, hfb, hA⟩
      · exact Or.inl (by rw [h]; exact ⟨rfl, rfl⟩)
      · exact Or.inr ⟨hfb, a, hA⟩

/-! ## Checkpoint classification and merge (main, generate-lessons.ts) -/

/-- Model of `isFallbackLesson`: prefix-sniff for the fallback sentence. -/
def isFallbackLesson (l : GeneratedLessonM) : Bool :=
  ("This section covers:").toList.isPrefixOf l.instructionalText

/-- A lesson's identity key, `l.sectionNumber || l.sectionTitle` (JS
falsiness: a missing or empty section number falls back to the title). -/
def lessonKey (l : GeneratedLessonM) : Str :=
  match l.sectionNumber with
  | some s => if s = [] then l.sectionTitle else s
  | none => l.sectionTitle

/-- The re-queued identity keys: keys of the fallback-marked lessons
(the `failedSectionIds` set of `main`; `Set.has` is list membership). -/
def failedSectionIds (lessons : List GeneratedLessonM) : List Str :=
  (lessons.filter isFallbackLesson).map lessonKey

/-- The retried-lesson map lookup: `Map.set` makes the last entry with a
key win, so lookup searches the reversed insertion order. -/
def retriedLookup (key : Str) (retried : List GeneratedLessonM) :
    Option GeneratedLessonM :=
  retried.reverse.find? (fun rl => lessonKey rl = key)

/-- Model of the merge of `main`: each prior lesson is replaced by the
retried lesson with the same identity key when one exists
(`retriedMap.get(id) ?? existing`). -/
def mergeLessons (existing retried : List GeneratedLessonM) : List GeneratedLessonM :=
  existing.map (fun e => (retriedLookup (lessonKey e) retried).getD e)

theorem key_inj_of_nodup (ls : List GeneratedLessonM)
    (hnd : (ls.map lessonKey).Nodup) :
    ∀ a ∈ ls, ∀ b ∈ ls, lessonKey a = lessonKey b → a = b :=
  fun a ha b hb hab => List.inj_on_of_nodup_map hnd ha hb hab

/-- Claim C6: for a prior chapter result with three lessons of which
exactly one is marked as fallback (and distinct identity keys, per the
data-model invariant that unit identity keys distinguish units),
classification re-queues exactly that lesson's key, and merging a new
outcome carrying that key replaces only that entry, leaving the two
non-fallback entries exactly as they were. -/
theorem classify_merge_single_fallback (ls : List GeneratedLessonM)
    (lf newL : GeneratedLessonM)
    (hlen : ls.length = 3)
    (hfilter : ls.filter isFallbackLesson = [lf])
    (hnd : (ls.map lessonKey).Nodup)
    (hkey : lessonKey newL = lessonKey lf)
    (hnew : isFallbackLesson newL = false) :
    failedSectionIds ls = [lessonKey lf] ∧
    (mergeLessons ls [newL]).length = 3 ∧
    mergeLessons ls [newL] = ls.map (fun e => if e = lf then newL else e) ∧
    (∀ e ∈ ls, isFallbackLesson e = false →
      (retriedLookup (lessonKey e) [newL]).getD e = e) := by
  have hlf_mem : lf ∈ ls := List.mem_of_mem_filter (hfilter ▸ List.mem_singleton_self lf)
  have hlf_fb : isFallbackLesson lf = true :=
    List.of_mem_filter (hfilter ▸ List.mem_singleton_self lf)
  have hkey_ne : ∀ e ∈ ls, e ≠ lf → lessonKey e ≠ lessonKey lf := by
    intro e he hne hk
    exact hne (key_inj_of_nodup ls hnd e he lf hlf_mem hk)
  have hlookup : ∀ e ∈ ls,
      (retriedLookup (lessonKey e) [newL]).getD e =
        if e = lf then newL else e := by
    intro e he
    by_cases hef : e = lf
    · subst hef
      simp [retriedLookup, List.find?, hkey]
    · have hne := hkey_ne e he hef
      have : ¬ (lessonKey newL = lessonKey e) := by
        rw [hkey]; exact fun hh => hne hh.symm
      simp [retriedLookup, List.find?, this, hef]
  refine ⟨?_, ?_, ?_, ?_⟩
  · simp [failedSectionIds, hfilter]
  · simp [mergeLessons, hlen]
  · exact List.map_congr_left hlookup
  · intro e he hefb
    rw [hlookup e he]
    have : e ≠ lf := fun hh => by rw [hh] at hefb; rw [hlf_fb] at hefb; exact absurd hefb (by simp)
    simp [this]

/-- Compact lesson literal for the C6 scenario. -/
def mkLessonEx (num : Str) (txt : Str) : GeneratedLessonM :=
  { sectionNumber := some num
    sectionTitle := ("T").toList
    chapterNumber := none
    chapterTitle := ("C").toList
    overview := []
    instructionalText := txt
    workedExamples := []
    keyTakeaways := []
    practiceQuestions := []
    memorizeableDrills := [] }

def c6L1 : GeneratedLessonM := mkLessonEx ("1.1").toList ("Alpha").toList

def c6L2 : GeneratedLessonM :=
  mkLessonEx ("1.2").toList ("This section covers: x.").toList

def c6L3 : GeneratedLessonM := mkLessonEx ("1.3").toList ("Beta").toList

def c6New : GeneratedLessonM := mkLessonEx ("1.2").toList ("Gamma").toList

/-- Witness for C6 on a concrete three-lesson chapter with one fallback. -/
theorem classify_merge_single_fallback_witness :
    failedSectionIds [c6L1, c6L2, c6L3] = [lessonKey c6L2] ∧
    (mergeLessons [c6L1, c6L2, c6L3] [c6New]).length = 3 ∧
    mergeLessons [c6L1, c6L2, c6L3] [c6New] =
      [c6L1, c6L2, c6L3].map (fun e => if e = c6L2 then c6New else e) ∧
    (∀ e ∈ [c6L1, c6L2, c6L3], isFallbackLesson e = false →
      (retriedLookup (lessonKey e) [c6New]).getD e = e) :=
  classify_merge_single_fallback [c6L1, c6L2, c6L3] c6L2 c6New
    (by decide) (by decide) (by decide) (by decide) (by decide)

/-! ## Concurrency-bounded runner (`mapWithConcurrency`, utils/concurrency.ts)

The runner executes in JavaScript's single-threaded cooperative model:
between awaits, bookkeeping (the loop check together with the cursor
claim, and each result write) runs atomically; suspension points let any
worker run next.  This is modelled by a small-step relation on runner
states where a scheduler picks any worker to advance: `claim` (loop
check true and cursor post-increment, entering the awaited mapper call),
`complete` (the awaited mapper resolves and the result write plus loop
re-entry run), `finish` (loop check false, the worker's promise
resolves).  The mapper is a pure function of item and index, so a
completed unit always writes `f items[i] i` — `complete` carries the
in-bounds fact that holds on all reachable states.  The local
`mapWithConcurrency` of generate-lessons.ts shares this claiming and
filling logic; its per-worker pacing sleep is one more suspension point,
already subsumed by the nondeterministic interleaving.

The `concurrency` argument is a JS number: finite (arbitrary-precision
rationals stand in for doubles; the source only compares, floors and
takes a minimum), an infinity, or NaN. -/

inductive JSNum where
  | val (q : ℚ) : JSNum
  | posInf : JSNum
  | negInf : JSNum
  | nan : JSNum

/-- `Number.isFinite`. -/
def JSNum.isFiniteB : JSNum → Bool
  | .val _ => true
  | _ => false

/-- The comparison `concurrency <= 0` (false for NaN and +Infinity). -/
def JSNum.leZeroB : JSNum → Bool
  | .val q => decide (q ≤ 0)
  | .negInf => true
  | .posInf => false
  | .nan => false

/-- The fail-fast guard of `mapWithConcurrency`:
`!Number.isFinite(concurrency) || concurrency <= 0`. -/
def concGuardFails (c : JSNum) : Bool := !c.isFiniteB || c.leZeroB

/-- `Math.min(Math.floor(concurrency), items.length)` (the guard has
ruled out the non-finite cases, left as 0 here). -/
def workerCount (c : JSNum) (n : Nat) : Nat :=
  match c with
  | .val q => min (Int.toNat ⌊q⌋) n
  | _ => 0

inductive WStatus where
  | idle : WStatus
  | working (idx : Nat) : WStatus
  | done : WStatus
deriving DecidableEq, Repr

structure RState (R : Type) where
  cursor : Nat
  results : List (Option R)
  workers : List WStatus

/-- `new Array<R>(items.length)` (all holes), `cursor = 0`, the worker
pool all at the top of their loop. -/
def initState (R : Type) (n k : Nat) : RState R :=
  ⟨0, List.replicate n none, List.replicate k WStatus.idle⟩

inductive RStep (items : List T) (f : T → Nat → R) : RState R → RState R → Prop
  | claim (w : Nat) (s : RState R) (hw : s.workers[w]? = some WStatus.idle)
      (hc : s.cursor < items.length) :
      RStep items f s ⟨s.cursor + 1, s.results, s.workers.set w (WStatus.working s.cursor)⟩
  | finish (w : Nat) (s : RState R) (hw : s.workers[w]? = some WStatus.idle)
      (hc : items.length ≤ s.cursor) :
      RStep items f s ⟨s.cursor, s.results, s.workers.set w WStatus.done⟩
  | complete (w i : Nat) (s : RState R) (hw : s.workers[w]? = some (WStatus.working i))
      (hi : i < items.length) :
      RStep items f s
        ⟨s.cursor, s.results.set i (some (f (items.get ⟨i, hi⟩) i)),
          s.workers.set w WStatus.idle⟩

inductive RSteps (items : List T) (f : T → Nat → R) : RState R → RState R → Prop
  | refl (s : RState R) : RSteps items f s s
  | tail (s1 s2 s3 : RState R) :
      RSteps items f s1 s2 → RStep items f s2 s3 → RSteps items f s1 s3

/-- All workers' promises have resolved: `Promise.all` settles. -/
def RTerminal (s : RState R) : Prop := ∀ w ∈ s.workers, w = WStatus.done

/-- What the function observably does: throw the guard error, or return
the results array (option-valued: a slot never written stays a hole). -/
inductive MapCOutcome (R : Type) where
  | threw (msg : Str) : MapCOutcome R
  | returned (rs : List (Option R)) : MapCOutcome R

/-- Model of `mapWithConcurrency` as a relation from inputs to the
observable outcome: guard failure throws before anything else exists;
an empty item list returns `[]` before any worker is created; otherwise
`workerCount` workers run to quiescence under any schedule. -/
inductive mapWithConcurrency (items : List T) (c : JSNum) (f : T → Nat → R) :
    MapCOutcome R → Prop
  | throw (h : concGuardFails c = true) :
      mapWithConcurrency items c f
        (.threw ("Concurrency must be a positive number.").toList)
  | empty (h : concGuardFails c = false) (he : items = []) :
      mapWithConcurrency items c f (.returned [])
  | run (h : concGuardFails c = false) (he : items ≠ []) (s : RState R)
      (hsteps : RSteps items f
        (initState R items.length (workerCount c items.length)) s)
      (hterm : RTerminal s) :
      mapWithConcurrency items c f (.returned s.results)

/-- `Math.min(concurrency, items.length)` over JS numbers: NaN
propagates, the infinities compare as usual. -/
def jsMinNum (c : JSNum) (n : Nat) : JSNum :=
  match c with
  | .val q => if q ≤ (n : ℚ) then .val q else .val (n : ℚ)
  | .posInf => .val (n : ℚ)
  | .negInf => .negInf
  | .nan => .nan

/-- `ToLength`, as applied by `Array.from({ length: ... })`: NaN,
-Infinity and non-positive values give 0, positive values truncate,
+Infinity clamps to 2^53 - 1. -/
def jsToLength : JSNum → Nat
  | .val q => if q ≤ 0 then 0 else Int.toNat ⌊q⌋
  | .posInf => 2 ^ 53 - 1
  | .negInf => 0
  | .nan => 0

/-- Worker count of the local `mapWithConcurrency` of generate-lessons.ts
(lines 169-188): `Math.min(concurrency, items.length)` fed straight to
`Array.from({ length: ... })`, with no guard and no flooring of its own. -/
def localWorkerCount (c : JSNum) (n : Nat) : Nat := jsToLength (jsMinNum c n)

/-- Model of the local `mapWithConcurrency` of generate-lessons.ts: the
body has no concurrency guard and no empty-list early return, so the
function always resolves to its results array — whatever the
concurrency value — once the `localWorkerCount` workers (possibly zero
of them) have gone quiescent. -/
inductive mapWithConcurrencyLocal (items : List T) (c : JSNum) (f : T → Nat → R) :
    MapCOutcome R → Prop
  | run (s : RState R)
      (hsteps : RSteps items f
        (initState R items.length (localWorkerCount c items.length)) s)
      (hterm : RTerminal s) :
      mapWithConcurrencyLocal items c f (.returned s.results)

theorem getq_lt (l : List α) (w : Nat) (x : α) (h : l[w]? = some x) : w < l.length := by
  by_contra hc
  rw [List.getElem?_eq_none (by omega)] at h
  exact Option.noConfusion h

theorem getq_mem (l : List α) (w : Nat) (x : α) (h : l[w]? = some x) : x ∈ l := by
  have hlt := getq_lt l w x h
  rw [List.getElem?_eq_getElem hlt] at h
  have hx : l[w] = x := by injection h
  exact hx ▸ List.getElem_mem hlt

theorem set_getq_same (l : List α) (i : Nat) (a : α) (h : i < l.length) :
    (l.set i a)[i]? = some a := by
  rw [List.getElem?_eq_getElem (by simpa using h)]
  simp [List.getElem_set_self]

theorem set_getq_other (l : List α) (i j : Nat) (a : α) (h : i ≠ j) :
    (l.set i a)[j]? = l[j]? := by
  rcases Nat.lt_or_ge j l.length with hj | hj
  · rw [List.getElem?_eq_getElem (by simpa using hj), List.getElem?_eq_getElem hj]
    simp [List.getElem_set_ne h]
  · rw [List.getElem?_eq_none (by simpa using hj), List.getElem?_eq_none hj]

/-- The inductive invariant of the runner: the cursor never passes the
item count; array lengths are fixed; every claimed index is either
already written with the mapper's value for that index or held by some
in-flight worker; and the pool (non-empty) can only be fully done once
the cursor has exhausted the items. -/
structure RInv (items : List T) (f : T → Nat → R) (k : Nat) (s : RState R) : Prop where
  cur_le : s.cursor ≤ items.length
  res_len : s.results.length = items.length
  wk_len : s.workers.length = k
  filled : ∀ i, i < s.cursor →
    s.results[i]? = some ((items[i]?).map (fun a => f a i)) ∨
    ∃ w : Nat, s.workers[w]? = some (WStatus.working i)
  done_cur : (∀ w ∈ s.workers, w = WStatus.done) → items.length ≤ s.cursor

theorem rinv_init (items : List T) (f : T → Nat → R) (k : Nat) (hk : 1 ≤ k) :
    RInv items f k (initState R items.length k) := by
  refine ⟨by simp [initState], by simp [initState], by simp [initState], ?_, ?_⟩
  · intro i hi
    simp [initState] at hi
  · intro hall
    exfalso
    have : WStatus.idle ∈ (initState R items.length k).workers := by
      simp only [initState]
      exact List.mem_replicate.mpr ⟨by omega, rfl⟩
    exact WStatus.noConfusion (hall _ this)

theorem rinv_step (items : List T) (f : T → Nat → R) (k : Nat)
    (s1 s2 : RState R) (hstep : RStep items f s1 s2) (hinv : RInv items f k s1) :
    RInv items f k s2 := by
  cases hstep with
  | claim w s hw hc =>
    obtain ⟨hcur, hres, hwk, hfill, hdone⟩ := hinv
    have hwlt : w < s1.workers.length := getq_lt _ _ _ hw
    refine ⟨by simp; omega, by simpa using hres, by simpa using hwk, ?_, ?_⟩
    · intro i hi
      simp only at hi ⊢
      by_cases heq : i = s1.cursor
      · subst heq
        exact Or.inr ⟨w, set_getq_same _ _ _ hwlt⟩
      · rcases hfill i (by omega) with hres2 | ⟨w2, hw2⟩
        · exact Or.inl hres2
        · right
          refine ⟨w2, ?_⟩
          have hw2w : w2 ≠ w := by
            intro hh; subst hh; rw [hw2] at hw; injection hw with hx; exact WStatus.noConfusion hx
          rw [set_getq_other _ _ _ _ (fun hh => hw2w hh.symm)]
          exact hw2
    · intro hall
      exfalso
      have hmem : WStatus.working s1.cursor ∈ s1.workers.set w (WStatus.working s1.cursor) :=
        getq_mem _ _ _ (set_getq_same _ _ _ hwlt)
      exact WStatus.noConfusion (hall _ hmem)
  | finish w s hw hc =>
    obtain ⟨hcur, hres, hwk, hfill, hdone⟩ := hinv
    refine ⟨hcur, hres, by simpa using hwk, ?_, fun _ => hc⟩
    intro i hi
    rcases hfill i hi with hres2 | ⟨w2, hw2⟩
    · exact Or.inl hres2
    · right
      refine ⟨w2, ?_⟩
      have hw2w : w2 ≠ w := by
        intro hh; subst hh; rw [hw2] at hw; injection hw with hx; exact WStatus.noConfusion hx
      rw [set_getq_other _ _ _ _ (fun hh => hw2w hh.symm)]
      exact hw2
  | complete w i0 s hw hi0 =>
    obtain ⟨hcur, hres, hwk, hfill, hdone⟩ := hinv
    have hwlt : w < s1.workers.length := getq_lt _ _ _ hw
    have hival : (items[i0]?).map (fun a => f a i0) = some (f (items.get ⟨i0, hi0⟩) i0) := by
      rw [List.getElem?_eq_getElem hi0]
      rfl
    refine ⟨hcur, by simpa using hres, by simpa using hwk, ?_, ?_⟩
    · intro i hi
      simp only at hi ⊢
      by_cases heq : i = i0
      · subst heq
        left
        rw [set_getq_same _ _ _ (by omega), hival]
      · rcases hfill i hi with hres2 | ⟨w2, hw2⟩
        · left
          rw [set_getq_other _ _ _ _ (fun hh => heq hh.symm)]
          exact hres2
        · by_cases hww : w2 = w
          · subst hww
            rw [hw2] at hw
            injection hw with hx
            injection hx with hx2
            exact absurd hx2.symm (fun hh => heq hh.symm)
          · right
            refine ⟨w2, ?_⟩
            rw [set_getq_other _ _ _ _ (fun hh => hww hh.symm)]
            exact hw2
    · intro hall
      exfalso
      have hmem : WStatus.idle ∈ s1.workers.set w WStatus.idle :=
        getq_mem _ _ _ (set_getq_same _ _ _ hwlt)
      exact WStatus.noConfusion (hall _ hmem)

theorem rinv_steps (items : List T) (f : T → Nat → R) (k : Nat)
    (s1 s2 : RState R) (hsteps : RSteps items f s1 s2) (hinv : RInv items f k s1) :
    RInv items f k s2 := by
  induction hsteps with
  | refl => exact hinv
  | tail s2 s3 hab hbc ih => exact rinv_step items f k s2 s3 hbc ih

/-- Claim C1: for every item list and every finite concurrency at least 1,
any quiescent run of the concurrency-bounded runner — under any
interleaving of the workers, hence regardless of completion order —
returns an array of the input's length whose slot `i` holds the
handler's value for input `i`. -/
theorem mapWithConcurrency_ordered (items : List T) (q : ℚ) (f : T → Nat → R)
    (rs : List (Option R)) (h1 : 1 ≤ q)
    (hrun : mapWithConcurrency items (JSNum.val q) f (MapCOutcome.returned rs)) :
    rs.length = items.length ∧
    ∀ i (hi : i < items.length), rs[i]? = some (some (f (items.get ⟨i, hi⟩) i)) := by
  cases hrun with
  | empty h he =>
    subst he
    exact ⟨rfl, fun i hi => by simp at hi⟩
  | run h he s hsteps hterm =>
    have hn : 1 ≤ items.length := List.length_pos.mpr he
    have hk : 1 ≤ workerCount (JSNum.val q) items.length := by
      simp only [workerCount]
      have hfl : (1 : ℤ) ≤ ⌊q⌋ := Int.le_floor.mpr (by exact_mod_cast h1)
      omega
    have hinv := rinv_steps items f _ _ _ hsteps (rinv_init items f _ hk)
    obtain ⟨hcur, hres, hwk, hfill, hdone⟩ := hinv
    have hce : items.length ≤ s.cursor := hdone hterm
    refine ⟨hres, ?_⟩
    intro i hi
    rcases hfill i (by omega) with hr | ⟨w, hw⟩
    · rw [hr, List.getElem?_eq_getElem hi]
      rfl
    · exact absurd (hterm _ (getq_mem _ _ _ hw)) (fun hh => WStatus.noConfusion hh)

theorem rsteps_no_workers (items : List T) (f : T → Nat → R) (s0 s : RState R)
    (h0 : s0.workers = []) (hsteps : RSteps items f s0 s) : s = s0 := by
  induction hsteps with
  | refl => rfl
  | tail s2 s3 hab hbc ih =>
    subst ih
    cases hbc with
    | claim w s hw hc => rw [h0] at hw; simp at hw
    | finish w s hw hc => rw [h0] at hw; simp at hw
    | complete w i s hw hi => rw [h0] at hw; simp at hw

theorem localWorkerCount_items_nil (c : JSNum) : localWorkerCount c 0 = 0 := by
  cases c with
  | val q =>
    simp only [localWorkerCount, jsMinNum, Nat.cast_zero]
    by_cases hq : q ≤ 0
    · simp [hq, jsToLength]
    · simp [hq, jsToLength]
  | posInf => simp [localWorkerCount, jsMinNum, jsToLength]
  | negInf => rfl
  | nan => rfl

theorem localWorkerCount_bad (c : JSNum) (hc : c.leZeroB = true ∨ c = JSNum.nan)
    (n : Nat) : localWorkerCount c n = 0 := by
  rcases hc with hc | rfl
  · cases c with
    | val q =>
      simp only [JSNum.leZeroB, decide_eq_true_eq] at hc
      have hqn : q ≤ (n : ℚ) := le_trans hc (Nat.cast_nonneg n)
      simp [localWorkerCount, jsMinNum, if_pos hqn, jsToLength, if_pos hc]
    | negInf => rfl
    | posInf => simp [JSNum.leZeroB] at hc
    | nan => rfl
  · rfl

/-- Claim C9 counterexample: the local runner of generate-lessons.ts
(lines 169-188, one of the claim's cited implementations) has no guard.
At the non-finite concurrency NaN with one unit, it does not throw: its
one and only behaviour is to spawn zero workers and resolve to an array
whose single slot was never written — so no handler was invoked, but no
error was thrown either, contradicting the claim's fail-fast. -/
theorem mapWithConcurrencyLocal_returns_on_bad_concurrency :
    concGuardFails JSNum.nan = true ∧
    mapWithConcurrencyLocal [3] JSNum.nan (fun (a : Nat) (_ : Nat) => a)
      (MapCOutcome.returned [none]) ∧
    ¬ mapWithConcurrencyLocal [3] JSNum.nan (fun (a : Nat) (_ : Nat) => a)
      (MapCOutcome.threw ("Concurrency must be a positive number.").toList) := by
  refine ⟨by decide, ?_, ?_⟩
  · refine mapWithConcurrencyLocal.run (initState Nat 1 (localWorkerCount JSNum.nan 1))
      (RSteps.refl _) ?_
    intro w hw
    rw [show (initState Nat 1 (localWorkerCount JSNum.nan 1)).workers = [] from rfl] at hw
    exact absurd hw (List.not_mem_nil w)
  · intro h
    nomatch h

/-- Claim C9 (amended): the fail-fast guard belongs to the shared runner
of utils/concurrency.ts — there, a non-finite or non-positive
concurrency makes the thrown guard error the one and only outcome for
every handler, so no handler ever runs, and with valid concurrency an
empty unit list returns the empty array through the early return that
precedes worker creation.  The local runner copy of generate-lessons.ts
has no guard and never throws: an empty unit list still yields the empty
array with zero workers, but a concurrency that is non-positive, NaN or
-Infinity yields an array of unwritten slots as the one and only
outcome — zero workers, no handler invoked, no error. -/
theorem mapWithConcurrency_guard_amended (items : List T) (c : JSNum) (f : T → Nat → R) :
    (concGuardFails c = true → ∀ out, mapWithConcurrency items c f out ↔
      out = MapCOutcome.threw ("Concurrency must be a positive number.").toList) ∧
    (concGuardFails c = false → items = [] → ∀ out,
      mapWithConcurrency items c f out ↔ out = MapCOutcome.returned []) ∧
    (∀ msg, ¬ mapWithConcurrencyLocal items c f (MapCOutcome.threw msg)) ∧
    (items = [] → ∀ out, mapWithConcurrencyLocal items c f out ↔
      out = MapCOutcome.returned []) ∧
    ((c.leZeroB = true ∨ c = JSNum.nan) → ∀ out,
      mapWithConcurrencyLocal items c f out ↔
        out = MapCOutcome.returned (List.replicate items.length none)) := by
  refine ⟨?_, ?_, ?_, ?_, ?_⟩
  · intro hg out
    constructor
    · intro hrun
      cases hrun with
      | throw h => rfl
      | empty h he => rw [h] at hg; exact Bool.noConfusion hg
      | run h he s hsteps hterm => rw [h] at hg; exact Bool.noConfusion hg
    · rintro rfl
      exact mapWithConcurrency.throw hg
  · intro hg he out
    constructor
    · intro hrun
      cases hrun with
      | throw h => rw [hg] at h; exact Bool.noConfusion h
      | empty h he2 => rfl
      | run h he2 s hsteps hterm => exact absurd he he2
    · rintro rfl
      exact mapWithConcurrency.empty hg he
  · intro msg h
    nomatch h
  · rintro rfl out
    have h0 : (initState R (0 : Nat) (localWorkerCount c 0)).workers = [] := by
      rw [initState, localWorkerCount_items_nil c]
      rfl
    constructor
    · intro hrun
      cases hrun with
      | run s hsteps hterm =>
        rw [rsteps_no_workers _ f _ s h0 hsteps]
        rfl
    · rintro rfl
      refine mapWithConcurrencyLocal.run (initState R 0 (localWorkerCount c 0))
        (RSteps.refl _) ?_
      intro w hw
      rw [h0] at hw
      exact absurd hw (List.not_mem_nil w)
  · intro hbad out
    have h0 : (initState R items.length (localWorkerCount c items.length)).workers = [] := by
      rw [initState, localWorkerCount_bad c hbad]
      rfl
    constructor
    · intro hrun
      cases hrun with
      | run s hsteps hterm =>
        rw [rsteps_no_workers _ f _ s h0 hsteps]
        rfl
    · rintro rfl
      refine mapWithConcurrencyLocal.run
        (initState R items.length (localWorkerCount c items.length))
        (RSteps.refl _) ?_
      intro w hw
      rw [h0] at hw
      exact absurd hw (List.not_mem_nil w)

def c1Items : List Nat := [10, 20]

def c1F : Nat → Nat → Nat := fun a i => a + i

/-- An initial runner state for two items at concurrency 2. -/
def c1Init : RState Nat := initState Nat c1Items.length (workerCount (JSNum.val 2) c1Items.length)

/-- Witness for C1: a concrete out-of-order schedule (worker 1 completes
unit 1 before worker 0 completes unit 0) still fills the array in input
order. -/
theorem mapWithConcurrency_ordered_witness :
    mapWithConcurrency c1Items (JSNum.val 2) c1F
      (MapCOutcome.returned [some 10, some 21]) ∧
    ([some 10, some 21] : List (Option Nat)).length = c1Items.length ∧
    (∀ i (hi : i < c1Items.length),
      ([some 10, some 21] : List (Option Nat))[i]? =
        some (some (c1F (c1Items.get ⟨i, hi⟩) i))) := by
  have st1 : RStep c1Items c1F c1Init
      ⟨1, [none, none], [WStatus.working 0, WStatus.idle]⟩ :=
    RStep.claim 0 c1Init rfl (by decide)
  have st2 : RStep c1Items c1F ⟨1, [none, none], [WStatus.working 0, WStatus.idle]⟩
      ⟨2, [none, none], [WStatus.working 0, WStatus.working 1]⟩ :=
    RStep.claim 1 _ rfl (by decide)
  have st3 : RStep c1Items c1F ⟨2, [none, none], [WStatus.working 0, WStatus.working 1]⟩
      ⟨2, [none, some 21], [WStatus.working 0, WStatus.idle]⟩ :=
    RStep.complete 1 1 ⟨2, [none, none], [WStatus.working 0, WStatus.working 1]⟩
      rfl (by decide)
  have st4 : RStep c1Items c1F ⟨2, [none, some 21], [WStatus.working 0, WStatus.idle]⟩
      ⟨2, [some 10, some 21], [WStatus.idle, WStatus.idle]⟩ :=
    RStep.complete 0 0 ⟨2, [none, some 21], [WStatus.working 0, WStatus.idle]⟩
      rfl (by decide)
  have st5 : RStep c1Items c1F ⟨2, [some 10, some 21], [WStatus.idle, WStatus.idle]⟩
      ⟨2, [some 10, some 21], [WStatus.done, WStatus.idle]⟩ :=
    RStep.finish 0 _ rfl (by decide)
  have st6 : RStep c1Items c1F ⟨2, [some 10, some 21], [WStatus.done, WStatus.idle]⟩
      ⟨2, [some 10, some 21], [WStatus.done, WStatus.done]⟩ :=
    RStep.finish 1 _ rfl (by decide)
  have hsteps : RSteps c1Items c1F c1Init
      ⟨2, [some 10, some 21], [WStatus.done, WStatus.done]⟩ :=
    RSteps.tail _ _ _ (RSteps.tail _ _ _ (RSteps.tail _ _ _ (RSteps.tail _ _ _
      (RSteps.tail _ _ _ (RSteps.tail _ _ _ (RSteps.refl _) st1) st2) st3) st4) st5) st6
  have hterm : RTerminal (R := Nat)
      ⟨2, [some 10, some 21], [WStatus.done, WStatus.done]⟩ := by
    intro w hw
    simp only [List.mem_cons, List.not_mem_nil, or_false] at hw
    rcases hw with rfl | rfl | rfl <;> rfl
  have hrun : mapWithConcurrency c1Items (JSNum.val 2) c1F
      (MapCOutcome.returned [some 10, some 21]) :=
    mapWithConcurrency.run (by decide) (by simp [c1Items]) _ hsteps hterm
  have hconc := mapWithConcurrency_ordered c1Items 2 c1F [some 10, some 21]
    (by norm_num) hrun
  exact ⟨hrun, hconc.1, hconc.2⟩

/-- Witness for amended C9: NaN concurrency makes the guarded runner
throw on a non-empty list; valid concurrency on an empty list returns
the empty array from either runner; and concurrency 0 makes the local
runner return a one-slot array of holes instead of throwing. -/
theorem mapWithConcurrency_guard_amended_witness :
    mapWithConcurrency [3] JSNum.nan (fun (a : Nat) (_ : Nat) => a)
      (MapCOutcome.threw ("Concurrency must be a positive number.").toList) ∧
    mapWithConcurrency ([] : List Nat) (JSNum.val 2) (fun a _ => a)
      (MapCOutcome.returned []) ∧
    mapWithConcurrencyLocal ([] : List Nat) (JSNum.val 2) (fun a _ => a)
      (MapCOutcome.returned []) ∧
    mapWithConcurrencyLocal [3] (JSNum.val 0) (fun (a : Nat) (_ : Nat) => a)
      (MapCOutcome.returned [none]) :=
  ⟨((mapWithConcurrency_guard_amended [3] JSNum.nan (fun a _ => a)).1
      (by decide) _).mpr rfl,
   ((mapWithConcurrency_guard_amended ([] : List Nat) (JSNum.val 2) (fun a _ => a)).2.1
      (by decide) rfl _).mpr rfl,
   ((mapWithConcurrency_guard_amended ([] : List Nat) (JSNum.val 2)
      (fun a _ => a)).2.2.2.1 rfl _).mpr rfl,
   ((mapWithConcurrency_guard_amended [3] (JSNum.val 0) (fun a _ => a)).2.2.2.2
      (Or.inl (by decide)) _).mpr rfl⟩
